import Mathlib

/-!
Lifecycle callbacks of `pop` (`callbacks.go`).

A shallow embedding of the eleven callback dispatchers of `callbacks.go` and
the properties of their dispatch.

What is modelled:

* A Go value held in the `Model.Value` interface is a `Val`: its dynamic type
  (`typeOf`) and, through pointers and sequences, the values it reaches.
* A type assertion `v.(AfterFindable)` is a look-up of the hook in the method
  set of the dynamic type (`typeAssert`), following the Go rule: the method set
  of a defined type `T` holds the methods declared with receiver `T`, that of
  `*T` the methods declared with receiver `T` or `*T`, and every other pointer
  type has an empty method set.
* The part of package `reflect` that `afterFind` uses (`ValueOf`, `Indirect`,
  `Kind`, `Len`, `Index`, `Addr`, `Interface`), including the addressability
  flag that decides whether `Addr` panics.
* Hooks are user code. A hook is a function from the receiver, the connection
  and the state of the world to a new state of the world and the error it
  returns. The world holds everything hooks can change (the database session
  and the content of the records). Hooks are taken to return: a panic inside
  a hook, the one of Go's wrapper for a value-receiver method called through a
  nil pointer included, is the hook's and is not modelled.
* Element and pointee types are defined types, pointers, slices and arrays;
  interface types in these places are left out.
* There are two embeddings of `afterFind`. In `afterFind` the hooks of a
  `Program` cannot reach the wrapped collection: the sequence the loop runs
  over is the one the call started with. In `afterFindLive` the hooks of a
  `LiveProgram` can also change the variable behind the wrapped pointer, `rv`
  is built after the hook of the wrapped value has run and the loop reads
  `rv.Len()` and `rv.Index(i)` at every turn; such a loop need not end, so it
  runs on a bound of turns. `afterFindLive_lift` proves that `afterFind` is
  `afterFindLive` on the programs whose hooks leave the collection alone.
* Two ghost logs make the behaviour observable: the hook invocations, each with
  its receiver, connection and result, and the capability probes.
-/

namespace Pop

/-- The eleven hook capabilities of `callbacks.go`, named after their method. -/
inductive HookKind where
  | AfterFind
  | AfterEagerFind
  | BeforeSave
  | BeforeCreate
  | BeforeUpdate
  | BeforeDestroy
  | BeforeValidate
  | AfterDestroy
  | AfterUpdate
  | AfterCreate
  | AfterSave
  deriving DecidableEq, Repr

/-- Go types, as far as the dispatchers can tell them apart. A defined type is
known by a number; `slice none t` is the unnamed type `[]t`, `slice (some n) t`
a defined type `type n []t`, and likewise for arrays. `record n` stands for a
defined type of any other kind (a struct, in practice). -/
inductive Ty where
  | record (name : Nat)
  | pointer (elem : Ty)
  | slice (name : Option Nat) (elem : Ty)
  | array (name : Option Nat) (elem : Ty)
  deriving DecidableEq, Repr

/-- Go values. `record n d` is a value of the defined type `n` (`d` tells the
records of one type apart), `ptr t v` a pointer of type `*t` to a variable
holding `v`, `nilPtr t` the nil pointer of type `*t`; a slice or array carries
its name, its element type and its elements. -/
inductive Val where
  | record (name : Nat) (data : Nat)
  | ptr (elem : Ty) (target : Val)
  | nilPtr (elem : Ty)
  | slice (name : Option Nat) (elem : Ty) (items : List Val)
  | array (name : Option Nat) (elem : Ty) (items : List Val)

/-- The dynamic type of a value. -/
def typeOf : Val → Ty
  | .record n _ => .record n
  | .ptr t _ => .pointer t
  | .nilPtr t => .pointer t
  | .slice n t _ => .slice n t
  | .array n t _ => .array n t

/-- An error value, as a hook returns it; `Option Err` is Go's `error`, `none`
being nil. -/
abbrev Err := Nat

/-- The session handle `*Connection`, known by its identity. -/
structure Connection where
  id : Nat
  deriving DecidableEq, Repr

/-- Everything a hook can change: the state of the database session and the
content of the records. -/
abbrev World := Nat

/-- A hook method as a type declares it: on the pointer receiver `*T`
(`ptrRecv = true`) or on the value receiver `T`, and what it does when called
on a receiver with a connection. -/
structure Method where
  ptrRecv : Bool
  body : Val → Connection → World → World × Option Err

/-- The hook methods of a program, by defined type and hook. -/
abbrev Program := Nat → HookKind → Option Method

/-- The name of a defined type that can declare methods. -/
def Ty.defined : Ty → Option Nat
  | .record n => some n
  | .pointer _ => none
  | .slice n _ => n
  | .array n _ => n

/-- The hook `k` as declared by `t`, when `t` is a defined type: through a
pointer (`viaPtr`) both receivers count, directly only the value receiver. -/
def declared (P : Program) (t : Ty) (k : HookKind) (viaPtr : Bool) : Option Method :=
  match t.defined with
  | none => none
  | some n =>
    match P n k with
    | none => none
    | some h => if viaPtr || !h.ptrRecv then some h else none

/-- Method set of a type, asked for one hook. -/
def methodSet (P : Program) (t : Ty) (k : HookKind) : Option Method :=
  match t with
  | .pointer b => declared P b k true
  | .record n => declared P (.record n) k false
  | .slice n e => declared P (.slice n e) k false
  | .array n e => declared P (.array n e) k false

/-- A value of a hook interface: the dynamic value and the method the
interface dispatches to. -/
structure Hookable where
  recv : Val
  method : Method

/-- The type assertion `v.(I)`, `I` the interface of hook `k`: `none` is
`ok = false`. A nil interface value asserts to nothing. -/
def typeAssert (P : Program) (v : Option Val) (k : HookKind) : Option Hookable :=
  match v with
  | none => none
  | some x =>
    match methodSet P (typeOf x) k with
    | none => none
    | some h => some ⟨x, h⟩

/-- One hook invocation, as the ghost log records it: the hook, the place
(`none` for the wrapped value, `some i` for element `i`), the receiver, the
connection handed over and the error returned. -/
structure Call where
  kind : HookKind
  site : Option Nat
  recv : Val
  conn : Connection
  result : Option Err

/-- One capability probe, as the ghost log records it. -/
structure Probe where
  kind : HookKind
  site : Option Nat
  deriving DecidableEq, Repr

/-- The state a dispatch runs in: the world, and the two ghost logs, oldest
entry first. -/
structure State where
  world : World
  calls : List Call
  probes : List Probe

/-- The state at the start of a dispatch call. -/
def State.init (w : World) : State := ⟨w, [], []⟩

/-- The type assertion with its entry in the probe log. -/
def probe (P : Program) (k : HookKind) (site : Option Nat) (v : Option Val) (st : State) :
    Option Hookable × State :=
  (typeAssert P v k, { st with probes := st.probes ++ [⟨k, site⟩] })

/-- The method call `x.Hook(c)` with its entry in the call log. -/
def invoke (x : Hookable) (k : HookKind) (site : Option Nat) (c : Connection) (st : State) :
    Option Err × State :=
  let r := x.method.body x.recv c st.world
  (r.2, { st with world := r.1, calls := st.calls ++ [⟨k, site, x.recv, c, r.2⟩] })

/-- The record handle: `Value` is the wrapped `interface{}`, `none` when nil. -/
structure Model where
  Value : Option Val

/-- How a call ends: it returns an `error`, or it panics. -/
inductive Outcome where
  | returned (err : Option Err)
  | panicked
  deriving DecidableEq, Repr

/-- The kinds of `reflect` that `afterFind` meets; `Struct` stands for every
kind that is neither a pointer nor a sequence. -/
inductive Kind where
  | Invalid
  | Struct
  | Ptr
  | Slice
  | Array
  deriving DecidableEq, Repr

/-- A non-zero `reflect.Value`: static type, value and the addressability
flag. The zero Value is `none`. -/
structure RValue where
  typ : Ty
  val : Val
  canAddr : Bool

/-- The `reflect.ValueOf` of an interface value: the zero Value for nil, and
never addressable. -/
def reflectValueOf : Option Val → Option RValue
  | none => none
  | some v => some ⟨typeOf v, v, false⟩

/-- The `reflect.Indirect`: one `Elem` step when the value is a pointer (the
zero Value for a nil pointer, an addressable Value otherwise), the value
itself when it is not a pointer. -/
def reflectIndirect : Option RValue → Option RValue
  | none => none
  | some ⟨_, .ptr t v, _⟩ => some ⟨t, v, true⟩
  | some ⟨_, .nilPtr _, _⟩ => none
  | some ⟨t, .record n d, a⟩ => some ⟨t, .record n d, a⟩
  | some ⟨t, .slice n e xs, a⟩ => some ⟨t, .slice n e xs, a⟩
  | some ⟨t, .array n e xs, a⟩ => some ⟨t, .array n e xs, a⟩

/-- The kind of a type. -/
def Ty.kind : Ty → Kind
  | .record _ => .Struct
  | .pointer _ => .Ptr
  | .slice _ _ => .Slice
  | .array _ _ => .Array

/-- The `Kind` method: `Invalid` for the zero Value. -/
def kindOf : Option RValue → Kind
  | none => .Invalid
  | some rv => rv.typ.kind

/-- The `Len` method of a slice or array. -/
def RValue.len (rv : RValue) : Nat :=
  match rv.val with
  | .slice _ _ xs => xs.length
  | .array _ _ xs => xs.length
  | _ => 0

/-- The `Index` method; `none` is a panic. An element of a slice is always
addressable, an element of an array is as addressable as the array. -/
def RValue.index (rv : RValue) (i : Nat) : Option RValue :=
  match rv.val with
  | .slice _ e xs => (xs.get? i).map fun x => ⟨e, x, true⟩
  | .array _ e xs => (xs.get? i).map fun x => ⟨e, x, rv.canAddr⟩
  | _ => none

/-- The `Addr` method; `none` is the panic on a Value that is not
addressable. -/
def RValue.addr (rv : RValue) : Option RValue :=
  if rv.canAddr then some ⟨.pointer rv.typ, .ptr rv.typ rv.val, false⟩ else none

/-- The `Interface` method: the value as an `interface{}`. -/
def RValue.interface (rv : RValue) : Option Val := some rv.val

/-- The loop `for i := 0; i < rv.Len(); i++` of `afterFind`, entered with `i`
and with `n` iterations to go (`n = rv.Len() - i`), for hooks that leave the
wrapped collection alone; `afterFindLoopLive` is the loop without that
restriction. -/
def afterFindLoop (P : Program) (c : Connection) (eager : Bool) (rv : RValue) :
    Nat → Nat → State → Outcome × State
  | 0, _, st => (.returned none, st)
  | n + 1, i, st =>
    match (rv.index i).bind RValue.addr with
    | none => (.panicked, st)
    | some elem =>
      if eager then
        match probe P .AfterEagerFind (some i) elem.interface st with
        | (none, st1) => afterFindLoop P c eager rv n (i + 1) st1
        | (some x, st1) =>
          match invoke x .AfterEagerFind (some i) c st1 with
          | (some err, st2) => (.returned (some err), st2)
          | (none, st2) => afterFindLoop P c eager rv n (i + 1) st2
      else
        match probe P .AfterFind (some i) elem.interface st with
        | (none, st1) => afterFindLoop P c eager rv n (i + 1) st1
        | (some x, st1) =>
          match invoke x .AfterFind (some i) c st1 with
          | (some err, st2) => (.returned (some err), st2)
          | (none, st2) => afterFindLoop P c eager rv n (i + 1) st2

/-- The first statement of `afterFind`: the hook of the wrapped value itself,
`AfterEagerFind` when `eager`, `AfterFind` otherwise. The error is the one that
makes `afterFind` return at once. -/
def afterFindValue (P : Program) (m : Model) (c : Connection) (eager : Bool) (st : State) :
    Option Err × State :=
  if eager then
    match probe P .AfterEagerFind none m.Value st with
    | (some x, st1) => invoke x .AfterEagerFind none c st1
    | (none, st1) => (none, st1)
  else
    match probe P .AfterFind none m.Value st with
    | (some x, st1) => invoke x .AfterFind none c st1
    | (none, st1) => (none, st1)

/-- The dispatcher `afterFind` of `callbacks.go`, for hooks that leave the
wrapped collection alone (the hooks of a `Program` cannot reach it);
`afterFindLive` is the dispatcher without that restriction. -/
def afterFind (P : Program) (m : Model) (c : Connection) (eager : Bool) (st : State) :
    Outcome × State :=
  match afterFindValue P m c eager st with
  | (some err, st1) => (.returned (some err), st1)
  | (none, st1) =>
    match reflectIndirect (reflectValueOf m.Value) with
    | none => (.returned none, st1)
    | some rv =>
      if rv.typ.kind ≠ .Slice ∧ rv.typ.kind ≠ .Array then (.returned none, st1)
      else afterFindLoop P c eager rv rv.len 0 st1

/-- The dispatcher `beforeSave` of `callbacks.go`. -/
def beforeSave (P : Program) (m : Model) (c : Connection) (st : State) : Option Err × State :=
  match probe P .BeforeSave none m.Value st with
  | (some x, st1) => invoke x .BeforeSave none c st1
  | (none, st1) => (none, st1)

/-- The dispatcher `beforeCreate` of `callbacks.go`. -/
def beforeCreate (P : Program) (m : Model) (c : Connection) (st : State) : Option Err × State :=
  match probe P .BeforeCreate none m.Value st with
  | (some x, st1) => invoke x .BeforeCreate none c st1
  | (none, st1) => (none, st1)

/-- The dispatcher `beforeUpdate` of `callbacks.go`. -/
def beforeUpdate (P : Program) (m : Model) (c : Connection) (st : State) : Option Err × State :=
  match probe P .BeforeUpdate none m.Value st with
  | (some x, st1) => invoke x .BeforeUpdate none c st1
  | (none, st1) => (none, st1)

/-- The dispatcher `beforeDestroy` of `callbacks.go`. -/
def beforeDestroy (P : Program) (m : Model) (c : Connection) (st : State) : Option Err × State :=
  match probe P .BeforeDestroy none m.Value st with
  | (some x, st1) => invoke x .BeforeDestroy none c st1
  | (none, st1) => (none, st1)

/-- The dispatcher `beforeValidate` of `callbacks.go`. -/
def beforeValidate (P : Program) (m : Model) (c : Connection) (st : State) : Option Err × State :=
  match probe P .BeforeValidate none m.Value st with
  | (some x, st1) => invoke x .BeforeValidate none c st1
  | (none, st1) => (none, st1)

/-- The dispatcher `afterDestroy` of `callbacks.go`. -/
def afterDestroy (P : Program) (m : Model) (c : Connection) (st : State) : Option Err × State :=
  match probe P .AfterDestroy none m.Value st with
  | (some x, st1) => invoke x .AfterDestroy none c st1
  | (none, st1) => (none, st1)

/-- The dispatcher `afterUpdate` of `callbacks.go`. -/
def afterUpdate (P : Program) (m : Model) (c : Connection) (st : State) : Option Err × State :=
  match probe P .AfterUpdate none m.Value st with
  | (some x, st1) => invoke x .AfterUpdate none c st1
  | (none, st1) => (none, st1)

/-- The dispatcher `afterCreate` of `callbacks.go`. -/
def afterCreate (P : Program) (m : Model) (c : Connection) (st : State) : Option Err × State :=
  match probe P .AfterCreate none m.Value st with
  | (some x, st1) => invoke x .AfterCreate none c st1
  | (none, st1) => (none, st1)

/-- The dispatcher `afterSave` of `callbacks.go`. -/
def afterSave (P : Program) (m : Model) (c : Connection) (st : State) : Option Err × State :=
  match probe P .AfterSave none m.Value st with
  | (some x, st1) => invoke x .AfterSave none c st1
  | (none, st1) => (none, st1)

/-- The nine dispatchers of a single value, each with its hook. -/
def singleDispatchers :
    List (HookKind × (Program → Model → Connection → State → Option Err × State)) :=
  [(.BeforeSave, beforeSave), (.BeforeCreate, beforeCreate), (.BeforeUpdate, beforeUpdate),
   (.BeforeDestroy, beforeDestroy), (.BeforeValidate, beforeValidate),
   (.AfterDestroy, afterDestroy), (.AfterUpdate, afterUpdate), (.AfterCreate, afterCreate),
   (.AfterSave, afterSave)]

/-- The hook that is selected by the flag `eager`. -/
def selected (eager : Bool) : HookKind :=
  if eager then .AfterEagerFind else .AfterFind

/-- The error of the first failing invocation of a call log, `none` when no
invocation failed. -/
def firstFailure (calls : List Call) : Option Err :=
  (calls.filterMap fun x => x.result).head?

/-- The wrapped value is a sequence of element type `e` with elements `xs`
whose elements can be addressed: a slice, a pointer to a slice, or a pointer
to an array. -/
def WrapsSeq (m : Model) (e : Ty) (xs : List Val) : Prop :=
  (∃ n, m.Value = some (.slice n e xs)) ∨
  (∃ n, m.Value = some (.ptr (.slice n e) (.slice n e xs))) ∨
  (∃ n, m.Value = some (.ptr (.array n e) (.array n e xs)))

/-- The entries of the call log for hook `k` run with success, one after the
other, on the addresses of the elements `xs` of element type `e`, the first
of them at index `i`. -/
def elemCalls (k : HookKind) (c : Connection) (e : Ty) : Nat → List Val → List Call
  | _, [] => []
  | i, x :: xs => ⟨k, some i, .ptr e x, c, none⟩ :: elemCalls k c e (i + 1) xs

/-- The entries of the probe log for hook `k` probed on `n` elements, the
first of them at index `i`. -/
def elemProbes (k : HookKind) : Nat → Nat → List Probe
  | _, 0 => []
  | i, n + 1 => ⟨k, some i⟩ :: elemProbes k (i + 1) n

/-- The number a demo record carries, read through a pointer if need be. -/
def demoData : Val → Nat
  | .record _ d => d
  | .ptr _ (.record _ d) => d
  | _ => 0

/-- The hook of the demo record type: it counts itself in the world and fails,
with the record's number as the error, on a record numbered 100 or more. -/
def demoHook (step : Nat) (recv : Val) (_c : Connection) (w : World) : World × Option Err :=
  (w + step, if 100 ≤ demoData recv then some (demoData recv) else none)

/-- A demo program. Type 1 (`User`, a struct) declares all eleven hooks on the
pointer receiver. Type 2 (`Users`, defined as `[]User`) declares `AfterFind`
and `AfterEagerFind` on the value receiver; the second always fails with
error 77. Type 4 (`Tag`, a struct) declares `BeforeSave` on the value
receiver. Every other type declares nothing. -/
def demo : Program := fun n k =>
  match n, k with
  | 1, .AfterEagerFind => some ⟨true, demoHook 2⟩
  | 1, _ => some ⟨true, demoHook 1⟩
  | 2, .AfterFind => some ⟨false, fun _ _ w => (w + 10, none)⟩
  | 2, .AfterEagerFind => some ⟨false, fun _ _ w => (w + 20, some 77)⟩
  | 4, .BeforeSave => some ⟨false, demoHook 1⟩
  | _, _ => none

/-- The demo type `User`. -/
def tUser : Ty := .record 1

/-- The connection of the demos. -/
def conn0 : Connection := ⟨0⟩

/-- Five users, the one at index 2 failing its hook with error 102. -/
def fiveUsers : List Val :=
  [.record 1 0, .record 1 1, .record 1 102, .record 1 3, .record 1 4]

/-- The value `rv` is a sequence of element type `e` with elements `xs` whose
elements can be addressed: a slice, or an addressable array. -/
def ElemsOf (rv : RValue) (e : Ty) (xs : List Val) : Prop :=
  (∃ n, rv.val = .slice n e xs) ∨ (∃ n, rv.val = .array n e xs ∧ rv.canAddr = true)

/-- The common shape of the nine dispatchers of a single value, for hook `k`. -/
def dispatchSingle (k : HookKind) (P : Program) (m : Model) (c : Connection) (st : State) :
    Option Err × State :=
  match probe P k none m.Value st with
  | (some x, st1) => invoke x k none c st1
  | (none, st1) => (none, st1)

/-- The call `x` of a log is an invocation of the method that the program
declares, under the hook `x.kind`, in the method set of the type of the
receiver: its result is what that method returns on the receiver and the
connection of the call, in some world. -/
def Call.genuine (P : Program) (x : Call) : Prop :=
  ∃ (h : Method) (w : World),
    methodSet P (typeOf x.recv) x.kind = some h ∧ x.result = (h.body x.recv x.conn w).2

/-- The entry of the call log for a successful call of hook `k` on the wrapped
value itself, when the wrapped value implements it. -/
def valueCalls (P : Program) (m : Model) (k : HookKind) (c : Connection) : List Call :=
  match typeAssert P m.Value k with
  | some x => [⟨k, none, x.recv, c, none⟩]
  | none => []

/-- The wrapped value is a slice or an array of element type `e` with elements
`xs`, held directly or behind one pointer. -/
def WrapsColl (m : Model) (e : Ty) (xs : List Val) : Prop :=
  (∃ n, m.Value = some (.slice n e xs)) ∨
  (∃ n, m.Value = some (.array n e xs)) ∨
  (∃ n, m.Value = some (.ptr (.slice n e) (.slice n e xs))) ∨
  (∃ n, m.Value = some (.ptr (.array n e) (.array n e xs)))

/-- The length of the dereferenced wrapped value, what `rv.Len()` is in
`afterFind`; 0 when there is nothing to take the length of. -/
def seqLen (m : Model) : Nat :=
  match reflectIndirect (reflectValueOf m.Value) with
  | none => 0
  | some rv => rv.len

/-- The entry of the call log for the call of hook `k` on the wrapped value
itself in the world `w`, when the wrapped value implements it. -/
def valueTrace (P : Program) (m : Model) (k : HookKind) (c : Connection) (w : World) :
    List Call :=
  match typeAssert P m.Value k with
  | some x => [⟨k, none, x.recv, c, (x.method.body x.recv c w).2⟩]
  | none => []

/-- Reference semantics of a list of hooks of kind `k`, each with the place it
belongs to: they run one after the other on the world, the run stops at the
first hook that fails and returns its error, and returns nil when none fails.
The result is the error, the world left and the calls made. -/
def runHooks (k : HookKind) (c : Connection) :
    List (Option Nat × Hookable) → World → Option Err × World × List Call
  | [], w => (none, w, [])
  | (site, x) :: rest, w =>
    match (x.method.body x.recv c w).2 with
    | some err => (some err, (x.method.body x.recv c w).1, [⟨k, site, x.recv, c, some err⟩])
    | none =>
      ((runHooks k c rest (x.method.body x.recv c w).1).1,
        (runHooks k c rest (x.method.body x.recv c w).1).2.1,
        ⟨k, site, x.recv, c, none⟩ :: (runHooks k c rest (x.method.body x.recv c w).1).2.2)

/-- The addresses of the elements of the dereferenced wrapped value, in index
order; there is none when the dereferenced value is not a slice or array. -/
def elemAddrs (m : Model) : List Val :=
  match reflectIndirect (reflectValueOf m.Value) with
  | none => []
  | some rv =>
    if rv.typ.kind = .Slice ∨ rv.typ.kind = .Array then
      match rv.val with
      | .slice _ e xs => xs.map (.ptr e)
      | .array _ e xs => xs.map (.ptr e)
      | _ => []
    else []

/-- The hooks of kind `k` of a list of element addresses, the first of them at
index `i`: the hook of an element when its address implements it. -/
def hooksFrom (P : Program) (k : HookKind) : Nat → List Val → List (Option Nat × Hookable)
  | _, [] => []
  | i, a :: rest =>
    match typeAssert P (some a) k with
    | some x => (some i, x) :: hooksFrom P k (i + 1) rest
    | none => hooksFrom P k (i + 1) rest

/-- The list of selected hooks of the reference definition: the hook of the
wrapped value if it implements it, then the hooks of the elements. -/
def selectedHooks (P : Program) (m : Model) (k : HookKind) : List (Option Nat × Hookable) :=
  (match typeAssert P m.Value k with
    | some x => [(none, x)]
    | none => []) ++ hooksFrom P k 0 (elemAddrs m)

/-- The sequential reference definition of `afterFind`: the selected hooks run
with stop at the first error. -/
def afterFindRef (P : Program) (m : Model) (c : Connection) (eager : Bool) (w : World) :
    Option Err × World × List Call :=
  runHooks (selected eager) c (selectedHooks P m (selected eager)) w

/-- The address of an element of type `e` implements hook `k`. -/
def implementing (P : Program) (e : Ty) (k : HookKind) : Bool :=
  (methodSet P (.pointer e) k).isSome

/-- A sequence with every element deleted whose address does not implement
hook `k`; any other value as it is. -/
def deleteAbsentSeq (P : Program) (k : HookKind) : Val → Val
  | .record n d => .record n d
  | .ptr t v => .ptr t v
  | .nilPtr t => .nilPtr t
  | .slice n e xs => .slice n e (xs.filter fun _ => implementing P e k)
  | .array n e xs => .array n e (xs.filter fun _ => implementing P e k)

/-- The wrapped collection with every element deleted whose address does not
implement hook `k`, the collection being held directly or behind a pointer. -/
def deleteAbsent (P : Program) (k : HookKind) : Val → Val
  | .record n d => .record n d
  | .ptr t v => .ptr t (deleteAbsentSeq P k v)
  | .nilPtr t => .nilPtr t
  | .slice n e xs => deleteAbsentSeq P k (.slice n e xs)
  | .array n e xs => deleteAbsentSeq P k (.array n e xs)

/-- What a call tells of itself apart from its receiver: hook, place,
connection and result. -/
def Call.outline (x : Call) : HookKind × Option Nat × Connection × Option Err :=
  (x.kind, x.site, x.conn, x.result)

/-- The hook `AfterFind` of the demo type `Rows`: it fails with error 55 on an
empty receiver. -/
def rowsHook (recv : Val) (_c : Connection) (w : World) : World × Option Err :=
  (w + 1,
    match recv with
    | .slice _ _ [] => some 55
    | _ => none)

/-- A second demo program. Type 5 (`Rows`, defined as `[]Plain`, `Plain` being
type 3) declares two hooks on the value receiver: `AfterFind`, which fails on
an empty receiver, and `BeforeSave`, which succeeds. `Plain` declares
nothing. -/
def demoRows : Program := fun n k =>
  match n, k with
  | 5, .AfterFind => some ⟨false, rowsHook⟩
  | 5, .BeforeSave => some ⟨false, fun _ _ w => (w + 1, none)⟩
  | _, _ => none

/-- The part of `afterFind` that follows its first statement: nothing for a
value that is no sequence, the loop over the elements otherwise. -/
def afterFindRest (P : Program) (m : Model) (c : Connection) (eager : Bool) (st : State) :
    Outcome × State :=
  match reflectIndirect (reflectValueOf m.Value) with
  | none => (.returned none, st)
  | some rv =>
    if rv.typ.kind ≠ .Slice ∧ rv.typ.kind ≠ .Array then (.returned none, st)
    else afterFindLoop P c eager rv rv.len 0 st

/-- The model whose wrapped collection has lost every element whose address
does not implement hook `k`. -/
def withoutAbsent (P : Program) (k : HookKind) (m : Model) : Model :=
  ⟨m.Value.map (deleteAbsent P k)⟩

/-- A third demo program. Type 6 (`Batch`, defined as `[2]User`) declares
`AfterFind` on the value receiver, which succeeds; type 1 (`User`) declares
`AfterFind` on the pointer receiver, as in the first demo. -/
def demoBatch : Program := fun n k =>
  match n, k with
  | 6, .AfterFind => some ⟨false, fun _ _ w => (w + 10, none)⟩
  | 1, .AfterFind => some ⟨true, demoHook 1⟩
  | _, _ => none

/-! ### Hooks that change the wrapped collection

A hook can change the variable behind the wrapped pointer: `(*Users).AfterFind`
can append to `*u`, and `afterFind` builds `rv` after that hook has run and
reads `rv.Len()` again at every turn of its loop. The definitions above take
the wrapped sequence as fixed during the call; the definitions below are the
embedding of `afterFind` without that restriction. -/

/-- A hook method of a program whose hooks can reach the variable behind the
wrapped pointer: `body` also reads the wrapped value as it is now, and `store`
is the value the hook leaves in the variable the wrapped pointer points to. -/
structure LiveMethod where
  ptrRecv : Bool
  body : Val → Connection → World → Option Val → World × Option Err
  store : Val → Connection → World → Option Val → Val

/-- The hook methods of such a program, by defined type and hook. -/
abbrev LiveProgram := Nat → HookKind → Option LiveMethod

/-- The rule of `declared`, for a `LiveProgram`. -/
def declaredLive (P : LiveProgram) (t : Ty) (k : HookKind) (viaPtr : Bool) :
    Option LiveMethod :=
  match t.defined with
  | none => none
  | some n =>
    match P n k with
    | none => none
    | some h => if viaPtr || !h.ptrRecv then some h else none

/-- The rule of `methodSet`, for a `LiveProgram`. -/
def methodSetLive (P : LiveProgram) (t : Ty) (k : HookKind) : Option LiveMethod :=
  match t with
  | .pointer b => declaredLive P b k true
  | .record n => declaredLive P (.record n) k false
  | .slice n e => declaredLive P (.slice n e) k false
  | .array n e => declaredLive P (.array n e) k false

/-- A value of a hook interface of a `LiveProgram`. -/
structure LiveHookable where
  recv : Val
  method : LiveMethod

/-- The type assertion `v.(I)`, for a `LiveProgram`. -/
def typeAssertLive (P : LiveProgram) (v : Option Val) (k : HookKind) : Option LiveHookable :=
  match v with
  | none => none
  | some x =>
    match methodSetLive P (typeOf x) k with
    | none => none
    | some h => some ⟨x, h⟩

/-- The value of the variable a wrapped pointer points to; a nil pointer for a
wrapped value that is no pointer to a variable. -/
def pointeeOf : Option Val → Val
  | some (.ptr _ p) => p
  | _ => .nilPtr (.record 0)

/-- The wrapped value after `p` is stored in the variable the wrapped pointer
points to; a wrapped value that is no pointer to a variable stays as it is. -/
def setPointee (cur : Option Val) (p : Val) : Option Val :=
  match cur with
  | some (.ptr t _) => some (.ptr t p)
  | some (.record n d) => some (.record n d)
  | some (.nilPtr t) => some (.nilPtr t)
  | some (.slice n e xs) => some (.slice n e xs)
  | some (.array n e xs) => some (.array n e xs)
  | none => none

/-- The state of a run of `afterFindLive`: the world, the two ghost logs, the
wrapped value as the hooks have left it, and a ghost counter, the largest
length `rv.Len()` has returned so far. -/
structure LiveState where
  world : World
  calls : List Call
  probes : List Probe
  value : Option Val
  maxLen : Nat

/-- The state at the start of a call of `afterFindLive`. -/
def LiveState.init (m : Model) (w : World) : LiveState := ⟨w, [], [], m.Value, 0⟩

/-- The type assertion with its entry in the probe log. -/
def probeLive (P : LiveProgram) (k : HookKind) (site : Option Nat) (v : Option Val)
    (st : LiveState) : Option LiveHookable × LiveState :=
  (typeAssertLive P v k, { st with probes := st.probes ++ [⟨k, site⟩] })

/-- The method call `x.Hook(c)` with its entry in the call log; the hook may
leave another value in the variable behind the wrapped pointer. -/
def invokeLive (x : LiveHookable) (k : HookKind) (site : Option Nat) (c : Connection)
    (st : LiveState) : Option Err × LiveState :=
  ((x.method.body x.recv c st.world st.value).2,
    { st with
      world := (x.method.body x.recv c st.world st.value).1,
      calls := st.calls ++ [⟨k, site, x.recv, c, (x.method.body x.recv c st.world st.value).2⟩],
      value := setPointee st.value (x.method.store x.recv c st.world st.value) })

/-- The `reflect.Value` `rv` of `afterFind`, read now: built from a pointer it
refers to the variable behind the pointer, whose value is the current one;
built from anything else it holds a copy, which no hook can reach. -/
def liveValue (rv : RValue) (cur : Option Val) : RValue :=
  match cur with
  | some (.ptr _ p) => ⟨rv.typ, p, rv.canAddr⟩
  | _ => rv

/-- The loop `for i := 0; i < rv.Len(); i++` of `afterFind` with `rv.Len()`
and `rv.Index(i)` read at every turn. The first number bounds the turns, as a
hook that grows the collection at every call keeps the loop running; `none` is
a run that was cut off by that bound. -/
def afterFindLoopLive (P : LiveProgram) (c : Connection) (eager : Bool) (rv : RValue) :
    Nat → Nat → LiveState → Option Outcome × LiveState
  | 0, _, st => (none, st)
  | fuel + 1, i, st =>
    if i < (liveValue rv st.value).len then
      match ((liveValue rv st.value).index i).bind RValue.addr with
      | none =>
        (some .panicked, { st with maxLen := max st.maxLen (liveValue rv st.value).len })
      | some elem =>
        if eager then
          match probeLive P .AfterEagerFind (some i) elem.interface
              { st with maxLen := max st.maxLen (liveValue rv st.value).len } with
          | (none, st1) => afterFindLoopLive P c eager rv fuel (i + 1) st1
          | (some x, st1) =>
            match invokeLive x .AfterEagerFind (some i) c st1 with
            | (some err, st2) => (some (.returned (some err)), st2)
            | (none, st2) => afterFindLoopLive P c eager rv fuel (i + 1) st2
        else
          match probeLive P .AfterFind (some i) elem.interface
              { st with maxLen := max st.maxLen (liveValue rv st.value).len } with
          | (none, st1) => afterFindLoopLive P c eager rv fuel (i + 1) st1
          | (some x, st1) =>
            match invokeLive x .AfterFind (some i) c st1 with
            | (some err, st2) => (some (.returned (some err)), st2)
            | (none, st2) => afterFindLoopLive P c eager rv fuel (i + 1) st2
    else
      (some (.returned none), { st with maxLen := max st.maxLen (liveValue rv st.value).len })

/-- The first statement of `afterFind`, for a `LiveProgram`. -/
def afterFindValueLive (P : LiveProgram) (m : Model) (c : Connection) (eager : Bool)
    (st : LiveState) : Option Err × LiveState :=
  if eager then
    match probeLive P .AfterEagerFind none m.Value st with
    | (some x, st1) => invokeLive x .AfterEagerFind none c st1
    | (none, st1) => (none, st1)
  else
    match probeLive P .AfterFind none m.Value st with
    | (some x, st1) => invokeLive x .AfterFind none c st1
    | (none, st1) => (none, st1)

/-- The dispatcher `afterFind` of `callbacks.go` for a program whose hooks can
change the wrapped collection: `rv` is built from the wrapped value as the hook
of the wrapped value left it, and the loop reads it at every turn. `fuel`
bounds the turns of the loop. -/
def afterFindLive (P : LiveProgram) (m : Model) (c : Connection) (eager : Bool) (fuel : Nat)
    (w : World) : Option Outcome × LiveState :=
  match afterFindValueLive P m c eager (LiveState.init m w) with
  | (some err, st1) => (some (.returned (some err)), st1)
  | (none, st1) =>
    match reflectIndirect (reflectValueOf st1.value) with
    | none => (some (.returned none), st1)
    | some rv =>
      if rv.typ.kind ≠ .Slice ∧ rv.typ.kind ≠ .Array then (some (.returned none), st1)
      else afterFindLoopLive P c eager rv fuel 0 st1

/-- The length of a slice or array value, 0 for any other value. -/
def valLen : Val → Nat
  | .slice _ _ xs => xs.length
  | .array _ _ xs => xs.length
  | _ => 0

/-- No hook of the program changes the length of the value in the variable
behind the wrapped pointer. -/
def KeepsLength (P : LiveProgram) : Prop :=
  ∀ n k h, P n k = some h → ∀ recv c w t p,
    valLen (h.store recv c w (some (.ptr t p))) = valLen p

/-- A hook method that leaves the wrapped collection alone, as a `LiveMethod`:
it does not read the current wrapped value and stores back what it found. -/
def liftMethod (h : Method) : LiveMethod :=
  ⟨h.ptrRecv, fun r c w _ => h.body r c w, fun _ _ _ cur => pointeeOf cur⟩

/-- A program whose hooks leave the wrapped collection alone, as a
`LiveProgram`: the hooks do not read the current wrapped value and store back
what they found. -/
def liftProgram (P : Program) : LiveProgram := fun n k =>
  match P n k with
  | none => none
  | some h => some (liftMethod h)

/-- The logs and the world of a `LiveState`. -/
def LiveState.toState (st : LiveState) : State := ⟨st.world, st.calls, st.probes⟩

/-- The hook `(*Grow).AfterFind` of the demo: it appends one user to the
collection behind its receiver. -/
def growStore (_recv : Val) (_c : Connection) (_w : World) (cur : Option Val) : Val :=
  match cur with
  | some (.ptr _ (.slice n e xs)) => .slice n e (xs ++ [.record 1 9])
  | other => pointeeOf other

/-- A demo program with a hook that grows the collection. Type 7 (`Grow`,
defined as `[]User`) declares `AfterFind` on the pointer receiver, which
appends a user and succeeds; type 1 (`User`) declares `AfterFind` on the
pointer receiver, which succeeds and leaves the collection alone. -/
def demoGrow : LiveProgram := fun n k =>
  match n, k with
  | 7, .AfterFind => some ⟨true, fun _ _ w _ => (w + 10, none), growStore⟩
  | 1, .AfterFind => some ⟨true, fun _ _ w _ => (w + 1, none), fun _ _ _ cur => pointeeOf cur⟩
  | _, _ => none

/-- One user in a `Grow` behind a pointer. -/
def growModel : Model :=
  ⟨some (.ptr (.slice (some 7) tUser) (.slice (some 7) tUser [.record 1 0]))⟩

/-- The part of `afterFindLive` that follows its first statement. -/
def afterFindRestLive (P : LiveProgram) (c : Connection) (eager : Bool) (fuel : Nat)
    (st : LiveState) : Option Outcome × LiveState :=
  match reflectIndirect (reflectValueOf st.value) with
  | none => (some (.returned none), st)
  | some rv =>
    if rv.typ.kind ≠ .Slice ∧ rv.typ.kind ≠ .Array then (some (.returned none), st)
    else afterFindLoopLive P c eager rv fuel 0 st

/-! ## The nine dispatchers of a single value -/

theorem mem_singleDispatchers {k : HookKind}
    {d : Program → Model → Connection → State → Option Err × State}
    (h : (k, d) ∈ singleDispatchers) : d = dispatchSingle k := by
  simp only [singleDispatchers, List.mem_cons, Prod.mk.injEq, List.mem_singleton,
    List.not_mem_nil, or_false] at h
  rcases h with ⟨rfl, rfl⟩ | ⟨rfl, rfl⟩ | ⟨rfl, rfl⟩ | ⟨rfl, rfl⟩ | ⟨rfl, rfl⟩ | ⟨rfl, rfl⟩ |
    ⟨rfl, rfl⟩ | ⟨rfl, rfl⟩ | ⟨rfl, rfl⟩ <;> rfl

theorem dispatchSingle_some (k : HookKind) (P : Program) (m : Model) (c : Connection)
    (st : State) (x : Hookable) (hx : typeAssert P m.Value k = some x) :
    dispatchSingle k P m c st =
      ((x.method.body x.recv c st.world).2,
        { world := (x.method.body x.recv c st.world).1,
          calls := st.calls ++ [⟨k, none, x.recv, c, (x.method.body x.recv c st.world).2⟩],
          probes := st.probes ++ [⟨k, none⟩] }) := by
  simp [dispatchSingle, probe, invoke, hx]

theorem dispatchSingle_none (k : HookKind) (P : Program) (m : Model) (c : Connection)
    (st : State) (hx : typeAssert P m.Value k = none) :
    dispatchSingle k P m c st = (none, { st with probes := st.probes ++ [⟨k, none⟩] }) := by
  simp [dispatchSingle, probe, hx]

theorem typeAssert_recv {P : Program} {v : Option Val} {k : HookKind} {x : Hookable}
    (hx : typeAssert P v k = some x) : v = some x.recv := by
  unfold typeAssert at hx
  split at hx
  · exact absurd hx (by simp)
  · split at hx
    · exact absurd hx (by simp)
    · simp only [Option.some.injEq] at hx
      subst hx
      rfl

theorem typeAssert_method {P : Program} {v : Option Val} {k : HookKind} {x : Hookable}
    (hx : typeAssert P v k = some x) : methodSet P (typeOf x.recv) k = some x.method := by
  unfold typeAssert at hx
  split at hx
  · exact absurd hx (by simp)
  · split at hx
    · exact absurd hx (by simp)
    · rename_i h hm
      simp only [Option.some.injEq] at hx
      subst hx
      exact hm

/-- C1: each of the nine dispatchers of a single value, run on a model whose
wrapped value implements the hook of the dispatcher, invokes that hook exactly
once (the call log holds this one call, on the wrapped value, with the
connection passed in) and returns exactly what the hook returned; the world is
the one the hook left. -/
theorem single_dispatch_invokes_once (P : Program) (m : Model) (c : Connection) (w : World)
    (k : HookKind) (d : Program → Model → Connection → State → Option Err × State)
    (hd : (k, d) ∈ singleDispatchers) (x : Hookable)
    (hx : typeAssert P m.Value k = some x) :
    m.Value = some x.recv ∧
    (d P m c (State.init w)).1 = (x.method.body x.recv c w).2 ∧
    (d P m c (State.init w)).2.calls =
      [⟨k, none, x.recv, c, (x.method.body x.recv c w).2⟩] ∧
    (d P m c (State.init w)).2.world = (x.method.body x.recv c w).1 := by
  rw [mem_singleDispatchers hd, dispatchSingle_some k P m c _ x hx]
  exact ⟨typeAssert_recv hx, rfl, rfl, rfl⟩

/-- Witness of C1: `beforeSave` on a pointer to the demo user 105, whose hook
fails with error 105. -/
theorem single_dispatch_invokes_once_witness :
    (beforeSave demo ⟨some (.ptr tUser (.record 1 105))⟩ conn0 (State.init 0)).1 = some 105 ∧
    (beforeSave demo ⟨some (.ptr tUser (.record 1 105))⟩ conn0 (State.init 0)).2.calls =
      [⟨.BeforeSave, none, .ptr tUser (.record 1 105), conn0, some 105⟩] :=
  have h := single_dispatch_invokes_once demo ⟨some (.ptr tUser (.record 1 105))⟩ conn0 0
    .BeforeSave beforeSave (by simp [singleDispatchers])
    ⟨.ptr tUser (.record 1 105), ⟨true, demoHook 1⟩⟩ rfl
  ⟨h.2.1, h.2.2.1⟩

/-- C2: each of the nine dispatchers of a single value, run on a model whose
wrapped value does not implement the hook of the dispatcher, returns nil,
invokes no hook (the call log is empty) and leaves the world, which holds the
session and the records, as it was. -/
theorem single_dispatch_absent_noop (P : Program) (m : Model) (c : Connection) (w : World)
    (k : HookKind) (d : Program → Model → Connection → State → Option Err × State)
    (hd : (k, d) ∈ singleDispatchers) (hx : typeAssert P m.Value k = none) :
    (d P m c (State.init w)).1 = none ∧
    (d P m c (State.init w)).2.calls = [] ∧
    (d P m c (State.init w)).2.world = w := by
  rw [mem_singleDispatchers hd, dispatchSingle_none k P m c _ hx]
  exact ⟨rfl, rfl, rfl⟩

/-- Witness of C2: `afterDestroy` on a value of the demo type 3, which
declares no hook. -/
theorem single_dispatch_absent_noop_witness :
    (afterDestroy demo ⟨some (.record 3 0)⟩ conn0 (State.init 5)).1 = none ∧
    (afterDestroy demo ⟨some (.record 3 0)⟩ conn0 (State.init 5)).2.calls = [] ∧
    (afterDestroy demo ⟨some (.record 3 0)⟩ conn0 (State.init 5)).2.world = 5 :=
  single_dispatch_absent_noop demo ⟨some (.record 3 0)⟩ conn0 5 .AfterDestroy afterDestroy
    (by simp [singleDispatchers]) rfl

/-! ## The dispatcher `afterFind`: unfolding -/

theorem afterFindValue_eq (P : Program) (m : Model) (c : Connection) (eager : Bool)
    (st : State) :
    afterFindValue P m c eager st = dispatchSingle (selected eager) P m c st := by
  cases eager <;> rfl

theorem afterFindLoop_succ (P : Program) (c : Connection) (eager : Bool) (rv : RValue)
    (n i : Nat) (st : State) :
    afterFindLoop P c eager rv (n + 1) i st =
      match (rv.index i).bind RValue.addr with
      | none => (.panicked, st)
      | some elem =>
        match typeAssert P (some elem.val) (selected eager) with
        | none =>
          afterFindLoop P c eager rv n (i + 1)
            { st with probes := st.probes ++ [⟨selected eager, some i⟩] }
        | some x =>
          match (x.method.body x.recv c st.world).2 with
          | some err =>
            (.returned (some err),
              { world := (x.method.body x.recv c st.world).1,
                calls := st.calls ++ [⟨selected eager, some i, x.recv, c, some err⟩],
                probes := st.probes ++ [⟨selected eager, some i⟩] })
          | none =>
            afterFindLoop P c eager rv n (i + 1)
              { world := (x.method.body x.recv c st.world).1,
                calls := st.calls ++ [⟨selected eager, some i, x.recv, c, none⟩],
                probes := st.probes ++ [⟨selected eager, some i⟩] } := by
  cases eager <;>
  · simp only [afterFindLoop, selected, probe, invoke, RValue.interface, Bool.false_eq_true,
      if_false, if_true]
    cases (rv.index i).bind RValue.addr with
    | none => rfl
    | some elem =>
      simp only []
      cases typeAssert P (some elem.val) _ with
      | none => rfl
      | some x =>
        simp only []
        generalize (x.method.body x.recv c st.world).2 = r
        cases r <;> rfl

theorem afterFind_eq (P : Program) (m : Model) (c : Connection) (eager : Bool) (st : State) :
    afterFind P m c eager st =
      match dispatchSingle (selected eager) P m c st with
      | (some err, st1) => (.returned (some err), st1)
      | (none, st1) =>
        match reflectIndirect (reflectValueOf m.Value) with
        | none => (.returned none, st1)
        | some rv =>
          if rv.typ.kind ≠ .Slice ∧ rv.typ.kind ≠ .Array then (.returned none, st1)
          else afterFindLoop P c eager rv rv.len 0 st1 := by
  simp only [afterFind, afterFindValue_eq]

theorem firstFailure_nil : firstFailure [] = none := rfl

theorem firstFailure_cons_none (x : Call) (xs : List Call) (h : x.result = none) :
    firstFailure (x :: xs) = firstFailure xs := by
  simp [firstFailure, List.filterMap_cons, h]

theorem firstFailure_cons_some (x : Call) (xs : List Call) (e : Err) (h : x.result = some e) :
    firstFailure (x :: xs) = some e := by
  simp [firstFailure, List.filterMap_cons, h]

/-- What every run of the loop does to the logs: it appends to them, every new
call is a call of the selected hook on an element with the connection of the
dispatch, every new probe asks for the selected hook on an element, and the
loop returns the error of the first new call that failed, if any did. -/
theorem afterFindLoop_log (P : Program) (c : Connection) (eager : Bool) (rv : RValue) :
    ∀ (n i : Nat) (st : State), ∃ (cs : List Call) (ps : List Probe),
      (afterFindLoop P c eager rv n i st).2.calls = st.calls ++ cs ∧
      (afterFindLoop P c eager rv n i st).2.probes = st.probes ++ ps ∧
      (∀ x ∈ cs, x.kind = selected eager ∧ x.conn = c ∧ x.genuine P ∧
        ∃ j, x.site = some j ∧ i ≤ j) ∧
      (∀ p ∈ ps, p.kind = selected eager ∧ ∃ j, p.site = some j ∧ i ≤ j) ∧
      (∀ e, (afterFindLoop P c eager rv n i st).1 = .returned (some e) ↔
        firstFailure cs = some e) := by
  intro n
  induction n with
  | zero =>
    intro i st
    refine ⟨[], [], by simp [afterFindLoop], by simp [afterFindLoop], by simp, by simp, ?_⟩
    intro e
    simp [afterFindLoop, firstFailure]
  | succ n ih =>
    intro i st
    rw [afterFindLoop_succ]
    cases (rv.index i).bind RValue.addr with
    | none =>
      refine ⟨[], [], by simp, by simp, by simp, by simp, ?_⟩
      intro e
      simp [firstFailure]
    | some elem =>
      simp only []
      cases hta : typeAssert P (some elem.val) (selected eager) with
      | none =>
        simp only []
        obtain ⟨cs, ps, h1, h2, h3, h4, h5⟩ := ih (i + 1)
          { st with probes := st.probes ++ [⟨selected eager, some i⟩] }
        refine ⟨cs, ⟨selected eager, some i⟩ :: ps, h1, ?_, ?_, ?_, h5⟩
        · rw [h2]; simp
        · intro x hx
          obtain ⟨a, b, g, j, hj, hij⟩ := h3 x hx
          exact ⟨a, b, g, j, hj, by omega⟩
        · intro p hp
          rcases List.mem_cons.mp hp with rfl | hp
          · exact ⟨rfl, i, rfl, le_refl i⟩
          · obtain ⟨a, j, hj, hij⟩ := h4 p hp
            exact ⟨a, j, hj, by omega⟩
      | some x =>
        simp only []
        cases hr : (x.method.body x.recv c st.world).2 with
        | some err =>
          simp only []
          refine ⟨[⟨selected eager, some i, x.recv, c, some err⟩], [⟨selected eager, some i⟩],
            rfl, rfl, ?_, ?_, ?_⟩
          · intro y hy
            rw [List.mem_singleton] at hy
            subst hy
            exact ⟨rfl, rfl, ⟨x.method, st.world, typeAssert_method hta, hr.symm⟩, i, rfl,
              le_refl i⟩
          · intro p hp
            rw [List.mem_singleton] at hp
            subst hp
            exact ⟨rfl, i, rfl, le_refl i⟩
          · intro e
            rw [firstFailure_cons_some _ _ err rfl]
            simp
        | none =>
          simp only []
          obtain ⟨cs, ps, h1, h2, h3, h4, h5⟩ := ih (i + 1)
            { world := (x.method.body x.recv c st.world).1,
              calls := st.calls ++ [⟨selected eager, some i, x.recv, c, none⟩],
              probes := st.probes ++ [⟨selected eager, some i⟩] }
          refine ⟨⟨selected eager, some i, x.recv, c, none⟩ :: cs,
            ⟨selected eager, some i⟩ :: ps, ?_, ?_, ?_, ?_, ?_⟩
          · rw [h1]; simp
          · rw [h2]; simp
          · intro y hy
            rcases List.mem_cons.mp hy with rfl | hy
            · exact ⟨rfl, rfl, ⟨x.method, st.world, typeAssert_method hta, hr.symm⟩, i, rfl,
                le_refl i⟩
            · obtain ⟨a, b, g, j, hj, hij⟩ := h3 y hy
              exact ⟨a, b, g, j, hj, by omega⟩
          · intro p hp
            rcases List.mem_cons.mp hp with rfl | hp
            · exact ⟨rfl, i, rfl, le_refl i⟩
            · obtain ⟨a, j, hj, hij⟩ := h4 p hp
              exact ⟨a, j, hj, by omega⟩
          · intro e
            rw [firstFailure_cons_none _ _ rfl]
            exact h5 e

/-- What the part of `afterFind` after its first statement does, started in
any state: it returns nil at once for a value that is no sequence, and runs
the loop otherwise. -/
theorem afterFind_rest_log (P : Program) (m : Model) (c : Connection) (eager : Bool)
    (st : State) :
    ∃ (cs : List Call) (ps : List Probe),
      (match reflectIndirect (reflectValueOf m.Value) with
        | none => ((.returned none, st) : Outcome × State)
        | some rv =>
          if rv.typ.kind ≠ .Slice ∧ rv.typ.kind ≠ .Array then (.returned none, st)
          else afterFindLoop P c eager rv rv.len 0 st).2.calls = st.calls ++ cs ∧
      (match reflectIndirect (reflectValueOf m.Value) with
        | none => ((.returned none, st) : Outcome × State)
        | some rv =>
          if rv.typ.kind ≠ .Slice ∧ rv.typ.kind ≠ .Array then (.returned none, st)
          else afterFindLoop P c eager rv rv.len 0 st).2.probes = st.probes ++ ps ∧
      (∀ x ∈ cs, x.kind = selected eager ∧ x.conn = c ∧ x.genuine P ∧ ∃ j, x.site = some j) ∧
      (∀ p ∈ ps, p.kind = selected eager ∧ ∃ j, p.site = some j) ∧
      (∀ e, (match reflectIndirect (reflectValueOf m.Value) with
        | none => ((.returned none, st) : Outcome × State)
        | some rv =>
          if rv.typ.kind ≠ .Slice ∧ rv.typ.kind ≠ .Array then (.returned none, st)
          else afterFindLoop P c eager rv rv.len 0 st).1 = .returned (some e) ↔
        firstFailure cs = some e) := by
  cases reflectIndirect (reflectValueOf m.Value) with
  | none =>
    exact ⟨[], [], by simp, by simp, by simp, by simp, by simp [firstFailure]⟩
  | some rv =>
    simp only []
    by_cases hk : rv.typ.kind ≠ .Slice ∧ rv.typ.kind ≠ .Array
    · rw [if_pos hk]
      exact ⟨[], [], by simp, by simp, by simp, by simp, by simp [firstFailure]⟩
    · rw [if_neg hk]
      obtain ⟨cs, ps, h1, h2, h3, h4, h5⟩ := afterFindLoop_log P c eager rv rv.len 0 st
      refine ⟨cs, ps, h1, h2, ?_, ?_, h5⟩
      · intro x hx
        obtain ⟨a, b, g, j, hj, _⟩ := h3 x hx
        exact ⟨a, b, g, j, hj⟩
      · intro p hp
        obtain ⟨a, j, hj, _⟩ := h4 p hp
        exact ⟨a, j, hj⟩

/-- The logs of a whole run of `afterFind`: every call is a call of the
selected hook with the connection of the dispatch, every probe asks for the
selected hook, and `afterFind` returns the error of the first call that
failed, if any did. -/
theorem afterFind_log (P : Program) (m : Model) (c : Connection) (eager : Bool) (w : World) :
    (∀ x ∈ (afterFind P m c eager (State.init w)).2.calls,
      x.kind = selected eager ∧ x.conn = c ∧ x.genuine P) ∧
    (∀ p ∈ (afterFind P m c eager (State.init w)).2.probes, p.kind = selected eager) ∧
    (∀ e, (afterFind P m c eager (State.init w)).1 = .returned (some e) ↔
      firstFailure (afterFind P m c eager (State.init w)).2.calls = some e) := by
  rw [afterFind_eq]
  cases hta : typeAssert P m.Value (selected eager) with
  | none =>
    rw [dispatchSingle_none _ _ _ _ _ hta]
    simp only []
    obtain ⟨cs, ps, h1, h2, h3, h4, h5⟩ := afterFind_rest_log P m c eager
      { State.init w with probes := (State.init w).probes ++ [⟨selected eager, none⟩] }
    refine ⟨?_, ?_, ?_⟩
    · intro x hx
      rw [h1] at hx
      simp only [State.init, List.nil_append] at hx
      exact ⟨(h3 x hx).1, (h3 x hx).2.1, (h3 x hx).2.2.1⟩
    · intro p hp
      rw [h2] at hp
      simp only [State.init, List.nil_append, List.singleton_append, List.mem_cons] at hp
      rcases hp with rfl | hp
      · rfl
      · exact (h4 p hp).1
    · intro e
      rw [h1]
      simpa [State.init] using h5 e
  | some x =>
    rw [dispatchSingle_some _ _ _ _ _ x hta]
    cases hr : (x.method.body x.recv c (State.init w).world).2 with
    | some err =>
      simp only []
      refine ⟨?_, ?_, ?_⟩
      · intro y hy
        simp only [State.init, List.nil_append, List.mem_singleton] at hy
        subst hy
        exact ⟨rfl, rfl, x.method, w, typeAssert_method hta, hr.symm⟩
      · intro p hp
        simp only [State.init, List.nil_append, List.mem_singleton] at hp
        subst hp
        rfl
      · intro e
        simp [State.init, firstFailure]
    | none =>
      simp only []
      obtain ⟨cs, ps, h1, h2, h3, h4, h5⟩ := afterFind_rest_log P m c eager
        { world := (x.method.body x.recv c (State.init w).world).1,
          calls := (State.init w).calls ++ [⟨selected eager, none, x.recv, c, none⟩],
          probes := (State.init w).probes ++ [⟨selected eager, none⟩] }
      refine ⟨?_, ?_, ?_⟩
      · intro y hy
        rw [h1] at hy
        simp only [State.init, List.nil_append, List.singleton_append, List.mem_cons] at hy
        rcases hy with rfl | hy
        · exact ⟨rfl, rfl, x.method, w, typeAssert_method hta, hr.symm⟩
        · exact ⟨(h3 y hy).1, (h3 y hy).2.1, (h3 y hy).2.2.1⟩
      · intro p hp
        rw [h2] at hp
        simp only [State.init, List.nil_append, List.singleton_append, List.mem_cons] at hp
        rcases hp with rfl | hp
        · rfl
        · exact (h4 p hp).1
      · intro e
        rw [h1]
        simp only [State.init, List.nil_append, List.singleton_append]
        rw [firstFailure_cons_none _ _ rfl]
        exact h5 e

theorem afterFind_not_sequence (P : Program) (m : Model) (c : Connection) (eager : Bool)
    (st : State)
    (hk : kindOf (reflectIndirect (reflectValueOf m.Value)) ≠ .Slice ∧
      kindOf (reflectIndirect (reflectValueOf m.Value)) ≠ .Array) :
    afterFind P m c eager st =
      (.returned (dispatchSingle (selected eager) P m c st).1,
        (dispatchSingle (selected eager) P m c st).2) := by
  rw [afterFind_eq]
  rcases dispatchSingle (selected eager) P m c st with ⟨_ | err, st1⟩
  · simp only []
    cases h : reflectIndirect (reflectValueOf m.Value) with
    | none => rfl
    | some rv =>
      rw [h] at hk
      simp only [kindOf] at hk
      simp only []
      rw [if_pos hk]
  · rfl

/-! ## The dispatcher `afterFind`: the claims that hold on every input -/

/-- C5: when the wrapped value itself implements the selected hook
(`AfterEagerFind` for `eager = true`, `AfterFind` for `eager = false`) and
that hook fails with `e`, `afterFind` returns exactly `e`; the call log holds
the call on the wrapped value and nothing else, and the probe log holds the
probe of the wrapped value and nothing else: no element is probed and no
element hook is invoked, whatever the wrapped value holds. -/
theorem afterFind_value_hook_failure (P : Program) (m : Model) (c : Connection)
    (eager : Bool) (w : World) (x : Hookable) (e : Err)
    (hx : typeAssert P m.Value (selected eager) = some x)
    (hfail : (x.method.body x.recv c w).2 = some e) :
    (afterFind P m c eager (State.init w)).1 = .returned (some e) ∧
    (afterFind P m c eager (State.init w)).2.calls =
      [⟨selected eager, none, x.recv, c, some e⟩] ∧
    (afterFind P m c eager (State.init w)).2.probes = [⟨selected eager, none⟩] := by
  have hfail2 : (x.method.body x.recv c (State.init w).world).2 = some e := hfail
  rw [afterFind_eq, dispatchSingle_some _ _ _ _ _ x hx, hfail2]
  exact ⟨rfl, rfl, rfl⟩

/-- Witness of C5: the demo slice type `Users` fails its `AfterEagerFind` with
error 77; its five elements, which implement the hook too, are not touched. -/
theorem afterFind_value_hook_failure_witness :
    (afterFind demo ⟨some (.slice (some 2) tUser fiveUsers)⟩ conn0 true (State.init 0)).1 =
      .returned (some 77) ∧
    (afterFind demo ⟨some (.slice (some 2) tUser fiveUsers)⟩ conn0 true (State.init 0)).2.calls =
      [⟨.AfterEagerFind, none, .slice (some 2) tUser fiveUsers, conn0, some 77⟩] ∧
    (afterFind demo ⟨some (.slice (some 2) tUser fiveUsers)⟩ conn0 true (State.init 0)).2.probes =
      [⟨.AfterEagerFind, none⟩] :=
  afterFind_value_hook_failure demo ⟨some (.slice (some 2) tUser fiveUsers)⟩ conn0 true 0
    ⟨.slice (some 2) tUser fiveUsers, ⟨false, fun _ _ w => (w + 20, some 77)⟩⟩ 77 rfl rfl

/-- C6: a call of `afterFind` with `eager = false` probes for `AfterFind` only
and invokes `AfterFind` hooks only, on the wrapped value and on every element;
a call with `eager = true` probes for `AfterEagerFind` only and invokes
`AfterEagerFind` hooks only. Every call of the log is an invocation of the
method declared under that hook for the type of its receiver, so a value that
implements both hooks has only the selected one run. -/
theorem afterFind_eager_exclusive (P : Program) (m : Model) (c : Connection) (w : World) :
    (∀ x ∈ (afterFind P m c false (State.init w)).2.calls,
      x.kind = .AfterFind ∧ x.kind ≠ .AfterEagerFind ∧ x.genuine P) ∧
    (∀ p ∈ (afterFind P m c false (State.init w)).2.probes, p.kind = .AfterFind) ∧
    (∀ x ∈ (afterFind P m c true (State.init w)).2.calls,
      x.kind = .AfterEagerFind ∧ x.kind ≠ .AfterFind ∧ x.genuine P) ∧
    (∀ p ∈ (afterFind P m c true (State.init w)).2.probes, p.kind = .AfterEagerFind) := by
  refine ⟨?_, ?_, ?_, ?_⟩
  · intro x hx
    obtain ⟨hk, _, hg⟩ := (afterFind_log P m c false w).1 x hx
    refine ⟨hk, ?_, hg⟩
    rw [hk]
    decide
  · intro p hp
    exact (afterFind_log P m c false w).2.1 p hp
  · intro x hx
    obtain ⟨hk, _, hg⟩ := (afterFind_log P m c true w).1 x hx
    refine ⟨hk, ?_, hg⟩
    rw [hk]
    decide
  · intro p hp
    exact (afterFind_log P m c true w).2.1 p hp

theorem dispatchSingle_log (k : HookKind) (P : Program) (m : Model) (c : Connection)
    (w : World) :
    (dispatchSingle k P m c (State.init w)).1 =
      firstFailure (dispatchSingle k P m c (State.init w)).2.calls ∧
    ∀ x ∈ (dispatchSingle k P m c (State.init w)).2.calls,
      x.kind = k ∧ x.conn = c ∧ x.site = none ∧ x.genuine P := by
  cases hta : typeAssert P m.Value k with
  | none =>
    rw [dispatchSingle_none _ _ _ _ _ hta]
    exact ⟨rfl, by simp [State.init]⟩
  | some x =>
    rw [dispatchSingle_some _ _ _ _ _ x hta]
    refine ⟨?_, ?_⟩
    · cases hr : (x.method.body x.recv c (State.init w).world).2 <;>
        simp [State.init, firstFailure]
    · intro y hy
      simp only [State.init, List.nil_append, List.mem_singleton] at hy
      subst hy
      exact ⟨rfl, rfl, rfl, x.method, w, typeAssert_method hta, rfl⟩

/-- C7: for each of the eleven dispatch operations and every input, the
dispatcher returns a non-nil error `e` if and only if some hook it invoked
returned a non-nil error and `e` is the error of the first invocation that
failed (`firstFailure` of the call log); every entry of the call log is the
result of the declared hook method, so the error is never one the dispatcher
made up, wrapped or changed. -/
theorem dispatch_error_identity (P : Program) (m : Model) (c : Connection) (w : World) :
    (∀ k d, (k, d) ∈ singleDispatchers →
      (∀ e, (d P m c (State.init w)).1 = some e ↔
        firstFailure (d P m c (State.init w)).2.calls = some e) ∧
      (∀ x ∈ (d P m c (State.init w)).2.calls, x.genuine P)) ∧
    (∀ eager,
      (∀ e, (afterFind P m c eager (State.init w)).1 = .returned (some e) ↔
        firstFailure (afterFind P m c eager (State.init w)).2.calls = some e) ∧
      (∀ x ∈ (afterFind P m c eager (State.init w)).2.calls, x.genuine P)) := by
  refine ⟨?_, ?_⟩
  · intro k d hd
    rw [mem_singleDispatchers hd]
    obtain ⟨h1, h2⟩ := dispatchSingle_log k P m c w
    refine ⟨?_, ?_⟩
    · intro e
      rw [← h1]
    · intro x hx
      exact (h2 x hx).2.2.2
  · intro eager
    obtain ⟨h1, _, h3⟩ := afterFind_log P m c eager w
    exact ⟨h3, fun x hx => (h1 x hx).2.2⟩

/-- C10: for a model whose wrapped value, once dereferenced, is neither a
slice nor an array, `afterFind` does its first statement only: when the
wrapped value implements the selected hook, the hook is invoked exactly once
and `afterFind` returns exactly its result; when it does not, `afterFind`
returns nil, invokes no hook and leaves the world as it was. -/
theorem afterFind_single_record (P : Program) (m : Model) (c : Connection) (eager : Bool)
    (w : World)
    (hk : kindOf (reflectIndirect (reflectValueOf m.Value)) ≠ .Slice ∧
      kindOf (reflectIndirect (reflectValueOf m.Value)) ≠ .Array) :
    (∀ x, typeAssert P m.Value (selected eager) = some x →
      (afterFind P m c eager (State.init w)).1 = .returned (x.method.body x.recv c w).2 ∧
      (afterFind P m c eager (State.init w)).2.calls =
        [⟨selected eager, none, x.recv, c, (x.method.body x.recv c w).2⟩] ∧
      (afterFind P m c eager (State.init w)).2.world = (x.method.body x.recv c w).1) ∧
    (typeAssert P m.Value (selected eager) = none →
      (afterFind P m c eager (State.init w)).1 = .returned none ∧
      (afterFind P m c eager (State.init w)).2.calls = [] ∧
      (afterFind P m c eager (State.init w)).2.world = w) := by
  rw [afterFind_not_sequence P m c eager _ hk]
  refine ⟨?_, ?_⟩
  · intro x hx
    rw [dispatchSingle_some _ _ _ _ _ x hx]
    exact ⟨rfl, rfl, rfl⟩
  · intro hx
    rw [dispatchSingle_none _ _ _ _ _ hx]
    exact ⟨rfl, rfl, rfl⟩

/-- Witness of C10: `afterFind` on a pointer to the demo user 105, whose
`AfterFind` fails with error 105. -/
theorem afterFind_single_record_witness :
    (afterFind demo ⟨some (.ptr tUser (.record 1 105))⟩ conn0 false (State.init 0)).1 =
      .returned (some 105) ∧
    (afterFind demo ⟨some (.ptr tUser (.record 1 105))⟩ conn0 false (State.init 0)).2.calls =
      [⟨.AfterFind, none, .ptr tUser (.record 1 105), conn0, some 105⟩] ∧
    (afterFind demo ⟨some (.ptr tUser (.record 1 105))⟩ conn0 false (State.init 0)).2.world = 1 :=
  (afterFind_single_record demo ⟨some (.ptr tUser (.record 1 105))⟩ conn0 false 0
    ⟨by decide, by decide⟩).1 ⟨.ptr tUser (.record 1 105), ⟨true, demoHook 1⟩⟩ rfl

/-! ## The loop of `afterFind` on a sequence whose elements can be addressed -/

theorem index_addr_of_elems {rv : RValue} {e : Ty} {done rest : List Val} {y : Val}
    (h : ElemsOf rv e (done ++ y :: rest)) :
    (rv.index done.length).bind RValue.addr = some ⟨.pointer e, .ptr e y, false⟩ := by
  have hget : (done ++ y :: rest).get? done.length = some y := by
    rw [List.get?_eq_getElem?, List.getElem?_append_right (le_refl _), Nat.sub_self,
      List.getElem?_cons_zero]
  rcases h with ⟨n, hv⟩ | ⟨n, hv, ha⟩
  · simp only [RValue.index, hv, hget, Option.map_some', Option.some_bind, RValue.addr,
      if_true]
  · simp only [RValue.index, hv, hget, Option.map_some', Option.some_bind, RValue.addr, ha,
      if_true]

theorem typeAssert_elem {P : Program} {e : Ty} {k : HookKind} {h : Method} (y : Val)
    (hm : methodSet P (.pointer e) k = some h) :
    typeAssert P (some (.ptr e y)) k = some ⟨.ptr e y, h⟩ := by
  simp [typeAssert, typeOf, hm]

theorem typeAssert_elem_none {P : Program} {e : Ty} {k : HookKind} (y : Val)
    (hm : methodSet P (.pointer e) k = none) :
    typeAssert P (some (.ptr e y)) k = none := by
  simp [typeAssert, typeOf, hm]

/-- The loop on elements that all succeed: it returns nil, having called the
hook once on the address of each element, in index order. `Good` is any
property of the world that holds at the start and that the hooks keep. -/
theorem afterFindLoop_success (P : Program) (c : Connection) (eager : Bool) (rv : RValue)
    (e : Ty) (h : Method) (Good : World → Prop)
    (hm : methodSet P (.pointer e) (selected eager) = some h) :
    ∀ (ys done : List Val) (st : State), ElemsOf rv e (done ++ ys) → Good st.world →
      (∀ y ∈ ys, ∀ w, Good w →
        (h.body (.ptr e y) c w).2 = none ∧ Good (h.body (.ptr e y) c w).1) →
      (afterFindLoop P c eager rv ys.length done.length st).1 = .returned none ∧
      (afterFindLoop P c eager rv ys.length done.length st).2.calls =
        st.calls ++ elemCalls (selected eager) c e done.length ys ∧
      (afterFindLoop P c eager rv ys.length done.length st).2.probes =
        st.probes ++ elemProbes (selected eager) done.length ys.length ∧
      Good (afterFindLoop P c eager rv ys.length done.length st).2.world := by
  intro ys
  induction ys with
  | nil =>
    intro done st _ hg _
    simp [afterFindLoop, elemCalls, elemProbes, hg]
  | cons y ys ih =>
    intro done st hel hg hok
    obtain ⟨hnone, hgood⟩ := hok y (List.mem_cons_self y ys) st.world hg
    have hel2 : ElemsOf rv e ((done ++ [y]) ++ ys) := by
      simpa [List.append_assoc] using hel
    have hrec := ih (done ++ [y])
      { world := (h.body (.ptr e y) c st.world).1,
        calls := st.calls ++ [⟨selected eager, some done.length, .ptr e y, c, none⟩],
        probes := st.probes ++ [⟨selected eager, some done.length⟩] }
      hel2 hgood (fun z hz => hok z (List.mem_cons_of_mem y hz))
    simp only [List.length_append, List.length_singleton] at hrec
    rw [List.length_cons, afterFindLoop_succ, index_addr_of_elems hel]
    simp only []
    rw [typeAssert_elem y hm]
    simp only []
    rw [hnone]
    simp only []
    obtain ⟨h1, h2, h3, h4⟩ := hrec
    refine ⟨h1, ?_, ?_, h4⟩
    · rw [h2]; simp [elemCalls]
    · rw [h3]; simp [elemProbes]

/-- The loop on elements of which the one after `pre` fails with `err`, those
of `pre` succeeding: it returns `err`, having called the hook on the elements
of `pre` and on the failing one, in index order, and on no later element. -/
theorem afterFindLoop_short_circuit (P : Program) (c : Connection) (eager : Bool)
    (rv : RValue) (e : Ty) (h : Method) (Good : World → Prop) (y : Val) (post : List Val)
    (err : Err) (hm : methodSet P (.pointer e) (selected eager) = some h)
    (hy : ∀ w, Good w → (h.body (.ptr e y) c w).2 = some err) :
    ∀ (pre done : List Val) (st : State), ElemsOf rv e (done ++ (pre ++ y :: post)) →
      Good st.world →
      (∀ z ∈ pre, ∀ w, Good w →
        (h.body (.ptr e z) c w).2 = none ∧ Good (h.body (.ptr e z) c w).1) →
      (afterFindLoop P c eager rv (pre ++ y :: post).length done.length st).1 =
        .returned (some err) ∧
      (afterFindLoop P c eager rv (pre ++ y :: post).length done.length st).2.calls =
        st.calls ++ (elemCalls (selected eager) c e done.length pre ++
          [⟨selected eager, some (done.length + pre.length), .ptr e y, c, some err⟩]) ∧
      (afterFindLoop P c eager rv (pre ++ y :: post).length done.length st).2.probes =
        st.probes ++ elemProbes (selected eager) done.length (pre.length + 1) := by
  intro pre
  induction pre with
  | nil =>
    intro done st hel hg _
    have hel1 : ElemsOf rv e (done ++ y :: post) := by simpa using hel
    rw [List.nil_append, List.length_cons, afterFindLoop_succ, index_addr_of_elems hel1]
    simp only []
    rw [typeAssert_elem y hm]
    simp only []
    rw [hy st.world hg]
    simp [elemCalls, elemProbes]
  | cons z pre ih =>
    intro done st hel hg hok
    obtain ⟨hnone, hgood⟩ := hok z (List.mem_cons_self z pre) st.world hg
    have hel1 : ElemsOf rv e (done ++ z :: (pre ++ y :: post)) := by simpa using hel
    have hel2 : ElemsOf rv e ((done ++ [z]) ++ (pre ++ y :: post)) := by
      simpa [List.append_assoc] using hel
    have hrec := ih (done ++ [z])
      { world := (h.body (.ptr e z) c st.world).1,
        calls := st.calls ++ [⟨selected eager, some done.length, .ptr e z, c, none⟩],
        probes := st.probes ++ [⟨selected eager, some done.length⟩] }
      hel2 hgood (fun u hu => hok u (List.mem_cons_of_mem z hu))
    simp only [List.length_append, List.length_singleton] at hrec
    rw [List.cons_append, List.length_cons, afterFindLoop_succ, index_addr_of_elems hel1]
    simp only []
    rw [typeAssert_elem z hm]
    simp only []
    rw [hnone]
    simp only [List.length_append]
    obtain ⟨h1, h2, h3⟩ := hrec
    refine ⟨h1, ?_, ?_⟩
    · rw [h2]
      simp [elemCalls, Nat.add_assoc, Nat.add_comm 1]
    · rw [h3]
      simp [elemProbes]

/-- The loop on elements whose address does not implement the selected hook:
it probes each of them, calls nothing and returns nil. -/
theorem afterFindLoop_absent (P : Program) (c : Connection) (eager : Bool) (rv : RValue)
    (e : Ty) (hm : methodSet P (.pointer e) (selected eager) = none) :
    ∀ (ys done : List Val) (st : State), ElemsOf rv e (done ++ ys) →
      afterFindLoop P c eager rv ys.length done.length st =
        (.returned none,
          { st with probes := st.probes ++ elemProbes (selected eager) done.length ys.length }) := by
  intro ys
  induction ys with
  | nil =>
    intro done st _
    simp [afterFindLoop, elemProbes]
  | cons y ys ih =>
    intro done st hel
    have hel2 : ElemsOf rv e ((done ++ [y]) ++ ys) := by
      simpa [List.append_assoc] using hel
    have hrec := ih (done ++ [y])
      { st with probes := st.probes ++ [⟨selected eager, some done.length⟩] } hel2
    simp only [List.length_append, List.length_singleton] at hrec
    rw [List.length_cons, afterFindLoop_succ, index_addr_of_elems hel]
    simp only []
    rw [typeAssert_elem_none y hm]
    simp only []
    rw [hrec]
    simp [elemProbes]

/-! ## `afterFind` on a slice, a pointer to a slice or a pointer to an array -/

theorem wrapsSeq_reflect {m : Model} {e : Ty} {xs : List Val} (h : WrapsSeq m e xs) :
    ∃ rv, reflectIndirect (reflectValueOf m.Value) = some rv ∧
      ¬ (rv.typ.kind ≠ .Slice ∧ rv.typ.kind ≠ .Array) ∧ ElemsOf rv e ([] ++ xs) ∧
      rv.len = xs.length := by
  rcases h with ⟨n, hv⟩ | ⟨n, hv⟩ | ⟨n, hv⟩
  · exact ⟨⟨.slice n e, .slice n e xs, false⟩, by rw [hv]; rfl, by simp [Ty.kind],
      Or.inl ⟨n, rfl⟩, rfl⟩
  · exact ⟨⟨.slice n e, .slice n e xs, true⟩, by rw [hv]; rfl, by simp [Ty.kind],
      Or.inl ⟨n, rfl⟩, rfl⟩
  · exact ⟨⟨.array n e, .array n e xs, true⟩, by rw [hv]; rfl, by simp [Ty.kind],
      Or.inr ⟨n, rfl, rfl⟩, rfl⟩

/-- Fan-out on a sequence whose elements can be addressed (a slice, a pointer
to a slice, a pointer to an array): when the address of an element implements
the selected hook and the hooks invoked all succeed, `afterFind` returns nil
and the call log is the call on the wrapped value, if it implements the hook,
followed by one call on each element, in index order. -/
theorem afterFind_fanout (P : Program) (m : Model) (c : Connection) (eager : Bool) (w : World)
    (e : Ty) (xs : List Val) (h : Method) (Good : World → Prop) (hw : WrapsSeq m e xs)
    (hm : methodSet P (.pointer e) (selected eager) = some h) (hg : Good w)
    (hv : ∀ x, typeAssert P m.Value (selected eager) = some x →
      (x.method.body x.recv c w).2 = none ∧ Good (x.method.body x.recv c w).1)
    (he : ∀ y ∈ xs, ∀ w1, Good w1 →
      (h.body (.ptr e y) c w1).2 = none ∧ Good (h.body (.ptr e y) c w1).1) :
    (afterFind P m c eager (State.init w)).1 = .returned none ∧
    (afterFind P m c eager (State.init w)).2.calls =
      valueCalls P m (selected eager) c ++ elemCalls (selected eager) c e 0 xs := by
  obtain ⟨rv, hrv, hk, hel, hlen⟩ := wrapsSeq_reflect hw
  rw [afterFind_eq, hrv]
  simp only [if_neg hk, hlen]
  cases hta : typeAssert P m.Value (selected eager) with
  | none =>
    rw [dispatchSingle_none _ _ _ _ _ hta]
    simp only []
    obtain ⟨h1, h2, _, _⟩ := afterFindLoop_success P c eager rv e h Good hm xs []
      { State.init w with probes := (State.init w).probes ++ [⟨selected eager, none⟩] }
      hel hg he
    exact ⟨h1, by rw [List.length_nil] at h2; rw [h2]; simp [State.init, valueCalls, hta]⟩
  | some x =>
    obtain ⟨hx1, hx2⟩ := hv x hta
    have hx1' : (x.method.body x.recv c (State.init w).world).2 = none := hx1
    rw [dispatchSingle_some _ _ _ _ _ x hta, hx1']
    simp only []
    obtain ⟨h1, h2, _, _⟩ := afterFindLoop_success P c eager rv e h Good hm xs []
      { world := (x.method.body x.recv c (State.init w).world).1,
        calls := (State.init w).calls ++ [⟨selected eager, none, x.recv, c, none⟩],
        probes := (State.init w).probes ++ [⟨selected eager, none⟩] }
      hel hx2 he
    exact ⟨h1, by rw [List.length_nil] at h2; rw [h2]; simp [State.init, valueCalls, hta]⟩

/-- Short circuit on a sequence whose elements can be addressed: when the
address of an element implements the selected hook, the hook of the wrapped
value (if any) and those of the elements `pre` succeed and the hook of the
next element `y` fails with `err`, `afterFind` returns exactly `err`; the call
log is the call on the wrapped value, if any, the calls on the elements of
`pre` in index order and the failing call on `y`; no element of `post` is
called. -/
theorem afterFind_short_circuit (P : Program) (m : Model) (c : Connection) (eager : Bool)
    (w : World) (e : Ty) (pre : List Val) (y : Val) (post : List Val) (h : Method) (err : Err)
    (Good : World → Prop) (hw : WrapsSeq m e (pre ++ y :: post))
    (hm : methodSet P (.pointer e) (selected eager) = some h) (hg : Good w)
    (hv : ∀ x, typeAssert P m.Value (selected eager) = some x →
      (x.method.body x.recv c w).2 = none ∧ Good (x.method.body x.recv c w).1)
    (he : ∀ z ∈ pre, ∀ w1, Good w1 →
      (h.body (.ptr e z) c w1).2 = none ∧ Good (h.body (.ptr e z) c w1).1)
    (hy : ∀ w1, Good w1 → (h.body (.ptr e y) c w1).2 = some err) :
    (afterFind P m c eager (State.init w)).1 = .returned (some err) ∧
    (afterFind P m c eager (State.init w)).2.calls =
      valueCalls P m (selected eager) c ++ (elemCalls (selected eager) c e 0 pre ++
        [⟨selected eager, some pre.length, .ptr e y, c, some err⟩]) := by
  obtain ⟨rv, hrv, hk, hel, hlen⟩ := wrapsSeq_reflect hw
  rw [afterFind_eq, hrv]
  simp only [if_neg hk, hlen]
  cases hta : typeAssert P m.Value (selected eager) with
  | none =>
    rw [dispatchSingle_none _ _ _ _ _ hta]
    simp only []
    obtain ⟨h1, h2, _⟩ := afterFindLoop_short_circuit P c eager rv e h Good y post err hm hy
      pre [] { State.init w with probes := (State.init w).probes ++ [⟨selected eager, none⟩] }
      hel hg he
    rw [List.length_nil] at h1 h2
    refine ⟨h1, ?_⟩
    rw [h2]
    simp [State.init, valueCalls, hta]
  | some x =>
    obtain ⟨hx1, hx2⟩ := hv x hta
    have hx1' : (x.method.body x.recv c (State.init w).world).2 = none := hx1
    rw [dispatchSingle_some _ _ _ _ _ x hta, hx1']
    simp only []
    obtain ⟨h1, h2, _⟩ := afterFindLoop_short_circuit P c eager rv e h Good y post err hm hy
      pre []
      { world := (x.method.body x.recv c (State.init w).world).1,
        calls := (State.init w).calls ++ [⟨selected eager, none, x.recv, c, none⟩],
        probes := (State.init w).probes ++ [⟨selected eager, none⟩] }
      hel hx2 he
    rw [List.length_nil] at h1 h2
    refine ⟨h1, ?_⟩
    rw [h2]
    simp [State.init, valueCalls, hta]

/-- The spec's example of the short circuit, on a slice: of five demo users
the one at index 2 fails with error 102; `afterFind` returns 102 after the
calls on the elements 0, 1 and 2. -/
theorem afterFind_short_circuit_five_users :
    (afterFind demo ⟨some (.slice none tUser fiveUsers)⟩ conn0 false (State.init 0)).1 =
      .returned (some 102) ∧
    (afterFind demo ⟨some (.slice none tUser fiveUsers)⟩ conn0 false (State.init 0)).2.calls =
      [⟨.AfterFind, some 0, .ptr tUser (.record 1 0), conn0, none⟩,
       ⟨.AfterFind, some 1, .ptr tUser (.record 1 1), conn0, none⟩,
       ⟨.AfterFind, some 2, .ptr tUser (.record 1 102), conn0, some 102⟩] :=
  afterFind_short_circuit demo ⟨some (.slice none tUser fiveUsers)⟩ conn0 false 0 tUser
    [.record 1 0, .record 1 1] (.record 1 102) [.record 1 3, .record 1 4] ⟨true, demoHook 1⟩ 102
    (fun _ => True) (Or.inl ⟨none, rfl⟩) rfl trivial
    (fun x hx => absurd hx (by simp [typeAssert, typeOf, methodSet, declared, Ty.defined]))
    (fun z hz w1 _ => by
      simp only [List.mem_cons, List.mem_singleton, List.not_mem_nil, or_false] at hz
      rcases hz with rfl | rfl <;> exact ⟨rfl, trivial⟩)
    (fun _ _ => rfl)

/-- No-op when absent, on a sequence whose elements can be addressed: when
neither the wrapped value nor the address of an element implements the
selected hook, `afterFind` returns nil, invokes no hook and leaves the world
as it was. -/
theorem afterFind_absent_on_sequence (P : Program) (m : Model) (c : Connection) (eager : Bool)
    (w : World) (e : Ty) (xs : List Val) (hw : WrapsSeq m e xs)
    (hv : typeAssert P m.Value (selected eager) = none)
    (hm : methodSet P (.pointer e) (selected eager) = none) :
    (afterFind P m c eager (State.init w)).1 = .returned none ∧
    (afterFind P m c eager (State.init w)).2.calls = [] ∧
    (afterFind P m c eager (State.init w)).2.world = w := by
  obtain ⟨rv, hrv, hk, hel, hlen⟩ := wrapsSeq_reflect hw
  rw [afterFind_eq, hrv, dispatchSingle_none _ _ _ _ _ hv]
  simp only []
  rw [if_neg hk, hlen]
  have h0 := afterFindLoop_absent P c eager rv e hm xs []
    { State.init w with probes := (State.init w).probes ++ [⟨selected eager, none⟩] } hel
  rw [List.length_nil] at h0
  rw [h0]
  exact ⟨rfl, rfl, rfl⟩

/-! ## Arrays held by value -/

/-- C3, at the failing input (the spec's five elements with the failure at
index 2, held in an array passed by value): `rv.Index(0).Addr()` panics, no
hook is invoked and nothing is returned; the same array behind a pointer gives
what the claim says, the error 102 of element 2 after the calls on elements 0,
1 and 2. -/
theorem afterFind_short_circuit_array_by_value :
    (afterFind demo ⟨some (.array none tUser fiveUsers)⟩ conn0 false (State.init 0)).1 =
      .panicked ∧
    (afterFind demo ⟨some (.array none tUser fiveUsers)⟩ conn0 false (State.init 0)).2.calls =
      [] ∧
    (afterFind demo ⟨some (.ptr (.array none tUser) (.array none tUser fiveUsers))⟩ conn0 false
      (State.init 0)).1 = .returned (some 102) ∧
    (afterFind demo ⟨some (.ptr (.array none tUser) (.array none tUser fiveUsers))⟩ conn0 false
      (State.init 0)).2.calls.map (fun x => x.site) = [some 0, some 1, some 2] :=
  ⟨rfl, rfl, rfl, rfl⟩

/-- C4, at the failing input (two demo users whose hooks succeed, held in an
array passed by value): `rv.Index(0).Addr()` panics and no element hook is
invoked; the same elements in a slice get one call each, in index order, and
nil is returned. -/
theorem afterFind_fanout_array_by_value :
    (afterFind demo ⟨some (.array none tUser [.record 1 0, .record 1 1])⟩ conn0 false
      (State.init 0)).1 = .panicked ∧
    (afterFind demo ⟨some (.array none tUser [.record 1 0, .record 1 1])⟩ conn0 false
      (State.init 0)).2.calls = [] ∧
    (afterFind demo ⟨some (.slice none tUser [.record 1 0, .record 1 1])⟩ conn0 false
      (State.init 0)).1 = .returned none ∧
    (afterFind demo ⟨some (.slice none tUser [.record 1 0, .record 1 1])⟩ conn0 false
      (State.init 0)).2.calls.map (fun x => x.site) = [some 0, some 1] :=
  ⟨rfl, rfl, rfl, rfl⟩

/-- C8, at the failing input (one value of the demo type 3, which declares no
hook, held in an array passed by value; no type involved implements any of the
eleven hooks): `afterFind` panics instead of returning nil, for both values of
the flag, while the nine other dispatchers return nil. -/
theorem afterFind_absent_array_by_value :
    (∀ k, typeAssert demo (some (.array none (.record 3) [.record 3 0])) k = none) ∧
    (∀ k, methodSet demo (.pointer (.record 3)) k = none) ∧
    (afterFind demo ⟨some (.array none (.record 3) [.record 3 0])⟩ conn0 false
      (State.init 0)).1 = .panicked ∧
    (afterFind demo ⟨some (.array none (.record 3) [.record 3 0])⟩ conn0 true
      (State.init 0)).1 = .panicked ∧
    (beforeSave demo ⟨some (.array none (.record 3) [.record 3 0])⟩ conn0 (State.init 0)).1 =
      none :=
  ⟨fun k => by cases k <;> rfl, fun k => by cases k <;> rfl, rfl, rfl, rfl⟩

/-! ## Values and pointers -/

/-- C9, the counterexample: the demo type `User` declares `BeforeSave` and
`AfterFind` on the pointer receiver. On a model that wraps a `User` passed by
value, `beforeSave` and `afterFind` find no hook, invoke nothing and return
nil, although the hook of user 105 fails with error 105 when the model wraps
the pointer. -/
theorem pointer_receiver_hook_skipped_by_value :
    (demo 1 .BeforeSave).map (fun h => h.ptrRecv) = some true ∧
    (beforeSave demo ⟨some (.record 1 105)⟩ conn0 (State.init 0)).1 = none ∧
    (beforeSave demo ⟨some (.record 1 105)⟩ conn0 (State.init 0)).2.calls = [] ∧
    (beforeSave demo ⟨some (.ptr tUser (.record 1 105))⟩ conn0 (State.init 0)).1 = some 105 ∧
    (afterFind demo ⟨some (.record 1 105)⟩ conn0 false (State.init 0)).1 = .returned none ∧
    (afterFind demo ⟨some (.record 1 105)⟩ conn0 false (State.init 0)).2.calls = [] ∧
    (afterFind demo ⟨some (.ptr tUser (.record 1 105))⟩ conn0 false (State.init 0)).1 =
      .returned (some 105) :=
  ⟨rfl, rfl, rfl, rfl, rfl, rfl, rfl⟩

theorem typeAssert_pointer_receiver {P : Program} {n : Nat} {k : HookKind} {h : Method}
    (hP : P n k = some h) (hr : h.ptrRecv = true) (v : Val) (d : Nat) :
    typeAssert P (some (.ptr (.record n) v)) k = some ⟨.ptr (.record n) v, h⟩ ∧
    typeAssert P (some (.record n d)) k = none := by
  simp [typeAssert, typeOf, methodSet, declared, Ty.defined, hP, hr]

/-- C9, amended: for a record type `T` (the defined type `n`) whose hook `k`
is declared on the pointer receiver `*T`, each dispatcher of hook `k` finds
and invokes the hook, once and on the pointer, when the model wraps a `*T`,
and returns what the hook returned; when the model wraps a `T` passed by
value the hook is not in the method set of the wrapped value and the
dispatcher returns nil without invoking it. This holds for the nine
dispatchers of a single value and for `afterFind` with the flag that selects
`k`. -/
theorem pointer_receiver_hook_probing (P : Program) (n : Nat) (k : HookKind) (h : Method)
    (hP : P n k = some h) (hr : h.ptrRecv = true) (c : Connection) (w : World) (v : Val)
    (data : Nat) :
    (∀ d, (k, d) ∈ singleDispatchers →
      (d P ⟨some (.ptr (.record n) v)⟩ c (State.init w)).1 =
        (h.body (.ptr (.record n) v) c w).2 ∧
      (d P ⟨some (.ptr (.record n) v)⟩ c (State.init w)).2.calls =
        [⟨k, none, .ptr (.record n) v, c, (h.body (.ptr (.record n) v) c w).2⟩] ∧
      (d P ⟨some (.record n data)⟩ c (State.init w)).1 = none ∧
      (d P ⟨some (.record n data)⟩ c (State.init w)).2.calls = []) ∧
    (∀ eager, k = selected eager →
      (afterFind P ⟨some (.ptr (.record n) v)⟩ c eager (State.init w)).1 =
        .returned (h.body (.ptr (.record n) v) c w).2 ∧
      (afterFind P ⟨some (.ptr (.record n) v)⟩ c eager (State.init w)).2.calls =
        [⟨k, none, .ptr (.record n) v, c, (h.body (.ptr (.record n) v) c w).2⟩] ∧
      (afterFind P ⟨some (.record n data)⟩ c eager (State.init w)).1 = .returned none ∧
      (afterFind P ⟨some (.record n data)⟩ c eager (State.init w)).2.calls = []) := by
  obtain ⟨hp, hv⟩ := typeAssert_pointer_receiver hP hr v data
  refine ⟨?_, ?_⟩
  · intro d hd
    rw [mem_singleDispatchers hd]
    rw [dispatchSingle_some k P ⟨some (.ptr (.record n) v)⟩ c _ _ hp,
      dispatchSingle_none k P ⟨some (.record n data)⟩ c _ hv]
    exact ⟨rfl, rfl, rfl, rfl⟩
  · intro eager hk
    subst hk
    rw [afterFind_not_sequence P ⟨some (.ptr (.record n) v)⟩ c eager _
        ⟨by simp [kindOf, reflectIndirect, reflectValueOf, Ty.kind],
          by simp [kindOf, reflectIndirect, reflectValueOf, Ty.kind]⟩,
      afterFind_not_sequence P ⟨some (.record n data)⟩ c eager _
        ⟨by simp [kindOf, reflectIndirect, reflectValueOf, typeOf, Ty.kind],
          by simp [kindOf, reflectIndirect, reflectValueOf, typeOf, Ty.kind]⟩,
      dispatchSingle_some _ P ⟨some (.ptr (.record n) v)⟩ c _ _ hp,
      dispatchSingle_none _ P ⟨some (.record n data)⟩ c _ hv]
    exact ⟨rfl, rfl, rfl, rfl⟩

/-- Witness of C9, amended: `beforeSave` on the demo user 105, wrapped as a
pointer and passed by value. -/
theorem pointer_receiver_hook_probing_witness :
    (beforeSave demo ⟨some (.ptr (.record 1) (.record 1 105))⟩ conn0 (State.init 0)).1 =
      some 105 ∧
    (beforeSave demo ⟨some (.ptr (.record 1) (.record 1 105))⟩ conn0 (State.init 0)).2.calls =
      [⟨.BeforeSave, none, .ptr (.record 1) (.record 1 105), conn0, some 105⟩] ∧
    (beforeSave demo ⟨some (.record 1 105)⟩ conn0 (State.init 0)).1 = none ∧
    (beforeSave demo ⟨some (.record 1 105)⟩ conn0 (State.init 0)).2.calls = [] :=
  (pointer_receiver_hook_probing demo 1 .BeforeSave ⟨true, demoHook 1⟩ rfl rfl conn0 0
    (.record 1 105) 105).1 beforeSave (by simp [singleDispatchers])

/-! ## Collections and the nine dispatchers of a single value -/

/-- C11: the nine dispatchers of a single value never iterate a collection.
On a model that wraps a slice or an array, held directly or behind a pointer,
whatever its elements implement: when the collection value itself does not
implement the hook the dispatcher returns nil, invokes no hook and leaves the
world as it was; when it does, the call log is the one call on the collection
value and the dispatcher returns its result; in both cases no call of the log
is on an element and the only probe is the one of the wrapped value. -/
theorem single_dispatch_never_iterates (P : Program) (m : Model) (c : Connection) (w : World)
    (k : HookKind) (d : Program → Model → Connection → State → Option Err × State)
    (hd : (k, d) ∈ singleDispatchers) (e : Ty) (xs : List Val) (_hcoll : WrapsColl m e xs) :
    (typeAssert P m.Value k = none →
      (d P m c (State.init w)).1 = none ∧
      (d P m c (State.init w)).2.calls = [] ∧
      (d P m c (State.init w)).2.world = w) ∧
    (∀ x, typeAssert P m.Value k = some x →
      (d P m c (State.init w)).1 = (x.method.body x.recv c w).2 ∧
      (d P m c (State.init w)).2.calls =
        [⟨k, none, x.recv, c, (x.method.body x.recv c w).2⟩]) ∧
    (∀ y ∈ (d P m c (State.init w)).2.calls, y.site = none) ∧
    (d P m c (State.init w)).2.probes = [⟨k, none⟩] := by
  rw [mem_singleDispatchers hd]
  refine ⟨?_, ?_, ?_, ?_⟩
  · intro hx
    rw [dispatchSingle_none k P m c _ hx]
    exact ⟨rfl, rfl, rfl⟩
  · intro x hx
    rw [dispatchSingle_some k P m c _ x hx]
    exact ⟨rfl, rfl⟩
  · intro y hy
    exact ((dispatchSingle_log k P m c w).2 y hy).2.2.1
  · cases hx : typeAssert P m.Value k with
    | none => rw [dispatchSingle_none k P m c _ hx]; rfl
    | some x => rw [dispatchSingle_some k P m c _ x hx]; rfl

/-- Witness of C11: `beforeSave` on a slice of five demo users, whose
addresses implement `BeforeSave` while the slice type does not: nil, and no
call. -/
theorem single_dispatch_never_iterates_witness :
    implementing demo tUser .BeforeSave = true ∧
    (beforeSave demo ⟨some (.slice none tUser fiveUsers)⟩ conn0 (State.init 0)).1 = none ∧
    (beforeSave demo ⟨some (.slice none tUser fiveUsers)⟩ conn0 (State.init 0)).2.calls = [] ∧
    (beforeSave demo ⟨some (.slice none tUser fiveUsers)⟩ conn0 (State.init 0)).2.world = 0 :=
  ⟨rfl, (single_dispatch_never_iterates demo ⟨some (.slice none tUser fiveUsers)⟩ conn0 0
    .BeforeSave beforeSave (by simp [singleDispatchers]) tUser fiveUsers
    (Or.inl ⟨none, rfl⟩)).1 rfl⟩

/-- The second case of C11 on the demo type `Rows`, a slice type that declares
`BeforeSave` itself: one call, on the slice. -/
theorem single_dispatch_on_rows :
    (beforeSave demoRows ⟨some (.slice (some 5) (.record 3) [.record 3 0, .record 3 1])⟩ conn0
      (State.init 0)).2.calls =
      [⟨.BeforeSave, none, .slice (some 5) (.record 3) [.record 3 0, .record 3 1], conn0,
        none⟩] :=
  rfl

/-! ## The connection handed to the hooks -/

/-- C15: every hook invoked during a dispatch call receives the connection `c`
that was passed to the dispatcher. For the nine dispatchers of a single value
and for `afterFind` with either flag, every call of the log, on the wrapped
value or on an element, has `c` as its connection, and its result is what the
declared hook method returns on the receiver and that connection. -/
theorem hook_receives_connection (P : Program) (m : Model) (c : Connection) (w : World) :
    (∀ k d, (k, d) ∈ singleDispatchers →
      ∀ x ∈ (d P m c (State.init w)).2.calls, x.conn = c ∧ x.genuine P) ∧
    (∀ eager, ∀ x ∈ (afterFind P m c eager (State.init w)).2.calls,
      x.conn = c ∧ x.genuine P) := by
  refine ⟨?_, ?_⟩
  · intro k d hd x hx
    rw [mem_singleDispatchers hd] at hx
    obtain ⟨_, h2, _, h4⟩ := (dispatchSingle_log k P m c w).2 x hx
    exact ⟨h2, h4⟩
  · intro eager x hx
    obtain ⟨_, h2, h3⟩ := (afterFind_log P m c eager w).1 x hx
    exact ⟨h2, h3⟩

/-! ## The places of the calls of `afterFind` -/

/-- The places of the calls the loop makes: they are element indices, strictly
increasing, each within the range of the loop, and there are no more calls
than iterations. -/
theorem afterFindLoop_sites (P : Program) (c : Connection) (eager : Bool) (rv : RValue) :
    ∀ (n i : Nat) (st : State), ∃ (cs : List Call) (js : List Nat),
      (afterFindLoop P c eager rv n i st).2.calls = st.calls ++ cs ∧
      cs.map (fun x => x.site) = js.map some ∧
      js.Pairwise (fun a b => a < b) ∧
      (∀ j ∈ js, i ≤ j ∧ j < i + n) ∧
      cs.length ≤ n := by
  intro n
  induction n with
  | zero =>
    intro i st
    exact ⟨[], [], by simp [afterFindLoop], rfl, List.Pairwise.nil, by simp, le_refl 0⟩
  | succ n ih =>
    intro i st
    rw [afterFindLoop_succ]
    cases (rv.index i).bind RValue.addr with
    | none =>
      exact ⟨[], [], by simp, rfl, List.Pairwise.nil, by simp, Nat.zero_le _⟩
    | some elem =>
      simp only []
      cases typeAssert P (some elem.val) (selected eager) with
      | none =>
        simp only []
        obtain ⟨cs, js, h1, h2, h3, h4, h5⟩ := ih (i + 1)
          { st with probes := st.probes ++ [⟨selected eager, some i⟩] }
        refine ⟨cs, js, h1, h2, h3, ?_, by omega⟩
        intro j hj
        have := h4 j hj
        omega
      | some x =>
        simp only []
        cases (x.method.body x.recv c st.world).2 with
        | some err =>
          simp only []
          refine ⟨[⟨selected eager, some i, x.recv, c, some err⟩], [i], rfl, rfl,
            List.pairwise_singleton _ _, ?_, by simp⟩
          intro j hj
          rw [List.mem_singleton] at hj
          omega
        | none =>
          simp only []
          obtain ⟨cs, js, h1, h2, h3, h4, h5⟩ := ih (i + 1)
            { world := (x.method.body x.recv c st.world).1,
              calls := st.calls ++ [⟨selected eager, some i, x.recv, c, none⟩],
              probes := st.probes ++ [⟨selected eager, some i⟩] }
          refine ⟨⟨selected eager, some i, x.recv, c, none⟩ :: cs, i :: js, ?_, ?_, ?_, ?_, ?_⟩
          · rw [h1]; simp
          · simp [h2]
          · rw [List.pairwise_cons]
            refine ⟨?_, h3⟩
            intro j hj
            have := h4 j hj
            omega
          · intro j hj
            rcases List.mem_cons.mp hj with rfl | hj
            · omega
            · have := h4 j hj
              omega
          · simp only [List.length_cons]
            omega

theorem afterFind_eq_rest (P : Program) (m : Model) (c : Connection) (eager : Bool)
    (st : State) :
    afterFind P m c eager st =
      match dispatchSingle (selected eager) P m c st with
      | (some err, st1) => (.returned (some err), st1)
      | (none, st1) => afterFindRest P m c eager st1 := by
  rw [afterFind_eq]
  rfl

theorem afterFindRest_sites (P : Program) (m : Model) (c : Connection) (eager : Bool)
    (st : State) :
    ∃ (cs : List Call) (js : List Nat),
      (afterFindRest P m c eager st).2.calls = st.calls ++ cs ∧
      cs.map (fun x => x.site) = js.map some ∧
      js.Pairwise (fun a b => a < b) ∧
      (∀ j ∈ js, j < seqLen m) ∧
      cs.length ≤ seqLen m := by
  unfold afterFindRest seqLen
  cases reflectIndirect (reflectValueOf m.Value) with
  | none =>
    exact ⟨[], [], by simp, rfl, List.Pairwise.nil, by simp, le_refl 0⟩
  | some rv =>
    simp only []
    by_cases hk : rv.typ.kind ≠ .Slice ∧ rv.typ.kind ≠ .Array
    · rw [if_pos hk]
      exact ⟨[], [], by simp, rfl, List.Pairwise.nil, by simp, Nat.zero_le _⟩
    · rw [if_neg hk]
      obtain ⟨cs, js, h1, h2, h3, h4, h5⟩ := afterFindLoop_sites P c eager rv rv.len 0 st
      refine ⟨cs, js, h1, h2, h3, ?_, h5⟩
      intro j hj
      have := h4 j hj
      omega

/-- The call log of `afterFind`: the call on the wrapped value, if it
implements the selected hook, followed by calls on elements whose indices are
strictly increasing and below the length of the collection. -/
theorem afterFind_trace (P : Program) (m : Model) (c : Connection) (eager : Bool)
    (w : World) :
    ∃ (cs : List Call) (js : List Nat),
      (afterFind P m c eager (State.init w)).2.calls =
        valueTrace P m (selected eager) c w ++ cs ∧
      cs.map (fun x => x.site) = js.map some ∧
      js.Pairwise (fun a b => a < b) ∧
      (∀ j ∈ js, j < seqLen m) ∧
      cs.length ≤ seqLen m := by
  rw [afterFind_eq_rest]
  cases hta : typeAssert P m.Value (selected eager) with
  | none =>
    rw [dispatchSingle_none _ _ _ _ _ hta]
    simp only []
    obtain ⟨cs, js, h1, h2, h3, h4, h5⟩ := afterFindRest_sites P m c eager
      { State.init w with probes := (State.init w).probes ++ [⟨selected eager, none⟩] }
    refine ⟨cs, js, ?_, h2, h3, h4, h5⟩
    rw [h1]
    simp [State.init, valueTrace, hta]
  | some x =>
    rw [dispatchSingle_some _ _ _ _ _ x hta]
    cases hr : (x.method.body x.recv c (State.init w).world).2 with
    | some err =>
      simp only []
      refine ⟨[], [], ?_, rfl, List.Pairwise.nil, by simp, Nat.zero_le _⟩
      have hr2 : (x.method.body x.recv c w).2 = some err := hr
      simp [State.init, valueTrace, hta, hr2]
    | none =>
      simp only []
      obtain ⟨cs, js, h1, h2, h3, h4, h5⟩ := afterFindRest_sites P m c eager
        { world := (x.method.body x.recv c (State.init w).world).1,
          calls := (State.init w).calls ++ [⟨selected eager, none, x.recv, c, none⟩],
          probes := (State.init w).probes ++ [⟨selected eager, none⟩] }
      refine ⟨cs, js, ?_, h2, h3, h4, h5⟩
      have hr2 : (x.method.body x.recv c w).2 = none := hr
      rw [h1]
      simp [State.init, valueTrace, hta, hr2]

theorem valueTrace_sites (P : Program) (m : Model) (k : HookKind) (c : Connection)
    (w : World) :
    (valueTrace P m k c w).length ≤ 1 ∧ ∀ x ∈ valueTrace P m k c w, x.site = none := by
  unfold valueTrace
  cases typeAssert P m.Value k with
  | none => simp
  | some x => simp

/-- The number of calls when no hook changes the wrapped sequence, which is
the case of `afterFind`: the places of the calls of the log are pairwise
different and on a collection of length `seqLen m` the log has at most
`seqLen m + 1` calls; each of the nine dispatchers of a single value makes at
most one call. -/
theorem afterFind_call_count (P : Program) (m : Model) (c : Connection) (w : World) :
    (∀ k d, (k, d) ∈ singleDispatchers → (d P m c (State.init w)).2.calls.length ≤ 1) ∧
    (∀ eager,
      ((afterFind P m c eager (State.init w)).2.calls.map fun x => x.site).Nodup ∧
      (afterFind P m c eager (State.init w)).2.calls.length ≤ seqLen m + 1) := by
  refine ⟨?_, ?_⟩
  · intro k d hd
    rw [mem_singleDispatchers hd]
    cases hta : typeAssert P m.Value k with
    | none => rw [dispatchSingle_none _ _ _ _ _ hta]; simp [State.init]
    | some x => rw [dispatchSingle_some _ _ _ _ _ x hta]; simp [State.init]
  · intro eager
    obtain ⟨cs, js, h1, h2, h3, _, h5⟩ := afterFind_trace P m c eager w
    obtain ⟨hv1, hv2⟩ := valueTrace_sites P m (selected eager) c w
    rw [h1]
    refine ⟨?_, ?_⟩
    · rw [List.map_append, h2, List.nodup_append]
      refine ⟨?_, ?_, ?_⟩
      · match hvt : valueTrace P m (selected eager) c w with
        | [] => simp
        | [a] => simp
        | a :: b :: rest => rw [hvt] at hv1; simp at hv1
      · exact (h3.imp (fun hab => Nat.ne_of_lt hab)).map some
          (fun a b hab hsome => hab (Option.some.inj hsome))
      · intro s hs1 hs2
        obtain ⟨x, hx, rfl⟩ := List.mem_map.mp hs1
        obtain ⟨j, _, hj⟩ := List.mem_map.mp hs2
        rw [hv2 x hx] at hj
        exact absurd hj (by simp)
    · rw [List.length_append]
      omega

/-! ## The hook of the collection and the hooks of its elements -/

/-- A run on the demo slice type `Users`, which implements `AfterFind` on the
value receiver and succeeds: its call comes first, the calls on the elements
follow in index order. -/
theorem afterFind_users_trace :
    (afterFind demo ⟨some (.slice (some 2) tUser [.record 1 0, .record 1 1])⟩ conn0 false
      (State.init 0)).2.calls =
      [⟨.AfterFind, none, .slice (some 2) tUser [.record 1 0, .record 1 1], conn0, none⟩,
       ⟨.AfterFind, some 0, .ptr tUser (.record 1 0), conn0, none⟩,
       ⟨.AfterFind, some 1, .ptr tUser (.record 1 1), conn0, none⟩] :=
  rfl

/-! ## When `afterFind` panics -/

theorem afterFindLoop_no_panic (P : Program) (c : Connection) (eager : Bool) (rv : RValue) :
    ∀ (n i : Nat) (st : State),
      (∀ j, i ≤ j → j < i + n → (rv.index j).bind RValue.addr ≠ none) →
      (afterFindLoop P c eager rv n i st).1 ≠ .panicked := by
  intro n
  induction n with
  | zero =>
    intro i st _
    simp [afterFindLoop]
  | succ n ih =>
    intro i st h
    rw [afterFindLoop_succ]
    have hi := h i (le_refl i) (by omega)
    have hrest : ∀ j, i + 1 ≤ j → j < i + 1 + n → (rv.index j).bind RValue.addr ≠ none :=
      fun j h1 h2 => h j (by omega) (by omega)
    cases hidx : (rv.index i).bind RValue.addr with
    | none => exact absurd hidx hi
    | some elem =>
      simp only []
      cases typeAssert P (some elem.val) (selected eager) with
      | none => exact ih (i + 1) _ hrest
      | some x =>
        simp only []
        cases (x.method.body x.recv c st.world).2 with
        | some err => simp
        | none => exact ih (i + 1) _ hrest

theorem index_addr_ne_none (rv : RValue)
    (h : rv.canAddr = true ∨ ∃ n e xs, rv.val = .slice n e xs) (j : Nat) (hj : j < rv.len) :
    (rv.index j).bind RValue.addr ≠ none := by
  obtain ⟨t, v, a⟩ := rv
  cases v with
  | record n d => simp [RValue.len] at hj
  | ptr t2 v2 => simp [RValue.len] at hj
  | nilPtr t2 => simp [RValue.len] at hj
  | slice n e xs =>
    simp only [RValue.len] at hj
    simp [RValue.index, RValue.addr, List.get?_eq_getElem?, List.getElem?_eq_getElem hj]
  | array n e xs =>
    simp only [RValue.len] at hj
    rcases h with h | ⟨n2, e2, xs2, h⟩
    · simp only at h
      simp [RValue.index, RValue.addr, List.get?_eq_getElem?, List.getElem?_eq_getElem hj, h]
    · simp at h

/-- The part of `afterFind` after its first statement panics exactly on a
non-empty array held by value. -/
theorem afterFindRest_panics_iff (P : Program) (m : Model) (c : Connection) (eager : Bool)
    (st : State) :
    (afterFindRest P m c eager st).1 = .panicked ↔
      ∃ n e y ys, m.Value = some (.array n e (y :: ys)) := by
  obtain ⟨v⟩ := m
  cases v with
  | none => simp [afterFindRest, reflectValueOf, reflectIndirect]
  | some v =>
    cases v with
    | record n d =>
      simp [afterFindRest, reflectValueOf, reflectIndirect, typeOf, Ty.kind]
    | nilPtr t => simp [afterFindRest, reflectValueOf, reflectIndirect]
    | ptr t v =>
      have hno : (afterFindRest P ⟨some (.ptr t v)⟩ c eager st).1 ≠ .panicked := by
        simp only [afterFindRest, reflectValueOf, reflectIndirect]
        split
        · simp
        · exact afterFindLoop_no_panic P c eager ⟨t, v, true⟩ _ 0 st
            (fun j _ hj => index_addr_ne_none ⟨t, v, true⟩ (Or.inl rfl) j (by omega))
      simp [hno]
    | slice n e xs =>
      have hno : (afterFindRest P ⟨some (.slice n e xs)⟩ c eager st).1 ≠ .panicked := by
        simp only [afterFindRest, reflectValueOf, reflectIndirect, typeOf]
        split
        · simp
        · exact afterFindLoop_no_panic P c eager ⟨.slice n e, .slice n e xs, false⟩ _ 0 st
            (fun j _ hj => index_addr_ne_none _ (Or.inr ⟨n, e, xs, rfl⟩) j (by omega))
      simp [hno]
    | array n e xs =>
      cases xs with
      | nil =>
        simp [afterFindRest, reflectValueOf, reflectIndirect, typeOf, Ty.kind, RValue.len,
          afterFindLoop]
      | cons y ys =>
        have hp : (afterFindRest P ⟨some (.array n e (y :: ys))⟩ c eager st).1 = .panicked := by
          simp only [afterFindRest, reflectValueOf, reflectIndirect, typeOf, Ty.kind,
            RValue.len, List.length_cons]
          rw [if_neg (by simp), afterFindLoop_succ]
          simp [RValue.index, RValue.addr]
        simp [hp]

/-- The dispatcher `afterFind` panics exactly when the wrapped value is a
non-empty array held by value and its first statement did not return an
error; on every other input it returns. -/
theorem afterFind_panics_iff (P : Program) (m : Model) (c : Connection) (eager : Bool)
    (w : World) :
    (afterFind P m c eager (State.init w)).1 = .panicked ↔
      (∃ n e y ys, m.Value = some (.array n e (y :: ys))) ∧
      (dispatchSingle (selected eager) P m c (State.init w)).1 = none := by
  rw [afterFind_eq_rest]
  rcases hd : dispatchSingle (selected eager) P m c (State.init w) with ⟨_ | err, st1⟩
  · simp only []
    rw [afterFindRest_panics_iff]
    simp
  · simp

/-- C16, at the failing input (two values of the demo type `Tag`, held in an
array passed by value): for both values of the flag, `afterFind` panics when
it takes the address of element 0; it does not return. The same array behind a
pointer, and the same elements in a slice, do return. -/
theorem afterFind_not_total_array_by_value :
    (afterFind demo ⟨some (.array none (.record 4) [.record 4 0, .record 4 1])⟩ conn0 false
      (State.init 0)).1 = .panicked ∧
    (afterFind demo ⟨some (.array none (.record 4) [.record 4 0, .record 4 1])⟩ conn0 true
      (State.init 0)).1 = .panicked ∧
    ((RValue.index ⟨.array none (.record 4), .array none (.record 4) [.record 4 0, .record 4 1],
      false⟩ 0).bind RValue.addr).isNone = true ∧
    (afterFind demo ⟨some (.ptr (.array none (.record 4))
      (.array none (.record 4) [.record 4 0, .record 4 1]))⟩ conn0 false (State.init 0)).1 =
      .returned none ∧
    (afterFind demo ⟨some (.slice none (.record 4) [.record 4 0, .record 4 1])⟩ conn0 false
      (State.init 0)).1 = .returned none :=
  ⟨rfl, rfl, rfl, rfl, rfl⟩

/-! ## Elements whose address does not implement the hook -/

/-- On a sequence whose elements can be addressed and whose element addresses
do not implement the selected hook, `afterFind` is its first statement followed
by one probe of each element: no element hook runs, no error arises and the
iteration goes to the end. -/
theorem afterFind_elems_absent (P : Program) (m : Model) (c : Connection) (eager : Bool)
    (st : State) (e : Ty) (xs : List Val) (hw : WrapsSeq m e xs)
    (hm : methodSet P (.pointer e) (selected eager) = none) :
    afterFind P m c eager st =
      match dispatchSingle (selected eager) P m c st with
      | (some err, st1) => (.returned (some err), st1)
      | (none, st1) =>
        (.returned none,
          { st1 with probes := st1.probes ++ elemProbes (selected eager) 0 xs.length }) := by
  obtain ⟨rv, hrv, hk, hel, hlen⟩ := wrapsSeq_reflect hw
  rw [afterFind_eq, hrv]
  simp only [if_neg hk, hlen]
  rcases dispatchSingle (selected eager) P m c st with ⟨_ | err, st1⟩
  · simp only []
    have h0 := afterFindLoop_absent P c eager rv e hm xs [] st1 hel
    rw [List.length_nil] at h0
    exact h0
  · rfl

theorem methodSet_pointer_pointer (P : Program) (t : Ty) (k : HookKind) :
    methodSet P (.pointer (.pointer t)) k = none := by
  simp [methodSet, declared, Ty.defined]

/-- Pointer elements, on a slice, a pointer to a slice or a pointer to an
array: when the element type is a pointer type `*T`, the address of an element
is a `**T`, whose method set is empty, so `afterFind` invokes no hook on an
element, whatever `*T` implements; its result, its call log and the world it
leaves are those of its first statement. -/
theorem afterFind_pointer_elements (P : Program) (m : Model) (c : Connection) (eager : Bool)
    (w : World) (t : Ty) (xs : List Val) (hw : WrapsSeq m (.pointer t) xs) :
    (afterFind P m c eager (State.init w)).1 =
      .returned (dispatchSingle (selected eager) P m c (State.init w)).1 ∧
    (afterFind P m c eager (State.init w)).2.calls =
      (dispatchSingle (selected eager) P m c (State.init w)).2.calls ∧
    (afterFind P m c eager (State.init w)).2.world =
      (dispatchSingle (selected eager) P m c (State.init w)).2.world ∧
    (∀ y ∈ (afterFind P m c eager (State.init w)).2.calls, y.site = none) := by
  have hs := (dispatchSingle_log (selected eager) P m c w).2
  rw [afterFind_elems_absent P m c eager _ (.pointer t) xs hw
    (methodSet_pointer_pointer P t (selected eager))]
  rcases hd : dispatchSingle (selected eager) P m c (State.init w) with ⟨_ | err, st1⟩
  · rw [hd] at hs
    exact ⟨rfl, rfl, rfl, fun y hy => (hs y hy).2.2.1⟩
  · rw [hd] at hs
    exact ⟨rfl, rfl, rfl, fun y hy => (hs y hy).2.2.1⟩

/-- C18, at the failing input (an array `[1]*User` passed by value, `*User`
implementing `AfterEagerFind`): `afterFind` panics when it takes the address of
element 0, so its result is not the nil of the first statement. In a slice the
same pointer element is skipped, as the claim says: nil, and no call, although
the hook of user 100 fails when it is run. -/
theorem afterFind_pointer_elements_array_by_value :
    implementing demo tUser .AfterEagerFind = true ∧
    implementing demo (.pointer tUser) .AfterEagerFind = false ∧
    (afterFind demo ⟨some (.array none (.pointer tUser) [.ptr tUser (.record 1 100)])⟩ conn0
      true (State.init 0)).1 = .panicked ∧
    (dispatchSingle .AfterEagerFind demo
      ⟨some (.array none (.pointer tUser) [.ptr tUser (.record 1 100)])⟩ conn0
      (State.init 0)).1 = none ∧
    (afterFind demo ⟨some (.slice none (.pointer tUser) [.ptr tUser (.record 1 100)])⟩ conn0
      true (State.init 0)).1 = .returned none ∧
    (afterFind demo ⟨some (.slice none (.pointer tUser) [.ptr tUser (.record 1 100)])⟩ conn0
      true (State.init 0)).2.calls = [] :=
  ⟨rfl, rfl, rfl, rfl, rfl, rfl⟩

/-! ## Levels of indirection -/

theorem afterFindLoop_congr (P : Program) (c : Connection) (eager : Bool) (rv rv2 : RValue)
    (h : ∀ j, (rv.index j).bind RValue.addr = (rv2.index j).bind RValue.addr) :
    ∀ (n i : Nat) (st : State),
      afterFindLoop P c eager rv n i st = afterFindLoop P c eager rv2 n i st := by
  intro n
  induction n with
  | zero =>
    intro i st
    simp [afterFindLoop]
  | succ n ih =>
    intro i st
    rw [afterFindLoop_succ, afterFindLoop_succ, h i]
    simp only [ih]

/-- C14, the counterexample: a pointer to a pointer to the slice of the five
demo users. `reflect.Indirect` removes one pointer and leaves a pointer, which
is no sequence: `afterFind` returns nil, makes no call and probes no element,
while on the slice held directly, and behind one pointer, it calls the
elements 0, 1 and 2 and returns the error 102 of element 2. -/
theorem afterFind_double_pointer_not_sequence :
    (afterFind demo
      ⟨some (.ptr (.pointer (.slice none tUser))
        (.ptr (.slice none tUser) (.slice none tUser fiveUsers)))⟩
      conn0 false (State.init 0)) = (.returned none, ⟨0, [], [⟨.AfterFind, none⟩]⟩) ∧
    (afterFind demo ⟨some (.slice none tUser fiveUsers)⟩ conn0 false (State.init 0)).1 =
      .returned (some 102) ∧
    (afterFind demo ⟨some (.ptr (.slice none tUser) (.slice none tUser fiveUsers))⟩ conn0 false
      (State.init 0)).1 = .returned (some 102) ∧
    (afterFind demo ⟨some (.slice none tUser fiveUsers)⟩ conn0 false
      (State.init 0)).2.calls.map (fun x => x.site) = [some 0, some 1, some 2] :=
  ⟨rfl, rfl, rfl, rfl⟩

/-- C14, amended: through exactly one level of indirection `afterFind` finds
the sequence. On a pointer to a slice and on a pointer to an array it runs,
after its first statement, the very loop over the elements that it runs on the
slice of these elements held directly: the same probes and calls, in index
order. Through two or more levels the dereferenced value is a pointer, not a
sequence, and a pointer to a pointer has no method: `afterFind` returns nil
after the probe of the wrapped value, whatever lies behind. -/
theorem afterFind_one_level_of_indirection (P : Program) (c : Connection) (eager : Bool)
    (st : State) (n : Option Nat) (e t : Ty) (xs : List Val) (v : Val) :
    (afterFind P ⟨some (.slice n e xs)⟩ c eager st =
      match dispatchSingle (selected eager) P ⟨some (.slice n e xs)⟩ c st with
      | (some err, st1) => (.returned (some err), st1)
      | (none, st1) =>
        afterFindLoop P c eager ⟨.slice n e, .slice n e xs, false⟩ xs.length 0 st1) ∧
    (afterFind P ⟨some (.ptr (.slice n e) (.slice n e xs))⟩ c eager st =
      match dispatchSingle (selected eager) P ⟨some (.ptr (.slice n e) (.slice n e xs))⟩ c st with
      | (some err, st1) => (.returned (some err), st1)
      | (none, st1) =>
        afterFindLoop P c eager ⟨.slice n e, .slice n e xs, false⟩ xs.length 0 st1) ∧
    (afterFind P ⟨some (.ptr (.array n e) (.array n e xs))⟩ c eager st =
      match dispatchSingle (selected eager) P ⟨some (.ptr (.array n e) (.array n e xs))⟩ c st with
      | (some err, st1) => (.returned (some err), st1)
      | (none, st1) =>
        afterFindLoop P c eager ⟨.slice n e, .slice n e xs, false⟩ xs.length 0 st1) ∧
    (afterFind P ⟨some (.ptr (.pointer t) v)⟩ c eager st =
      (.returned none, { st with probes := st.probes ++ [⟨selected eager, none⟩] })) := by
  refine ⟨?_, ?_, ?_, ?_⟩
  · rw [afterFind_eq]
    rfl
  · rw [afterFind_eq]
    simp only [reflectValueOf, reflectIndirect, Ty.kind, RValue.len]
    rcases dispatchSingle (selected eager) P _ c st with ⟨_ | err, st1⟩
    · simp only [ne_eq, not_true_eq_false, false_and, and_false, if_false]
      exact afterFindLoop_congr P c eager ⟨.slice n e, .slice n e xs, true⟩
        ⟨.slice n e, .slice n e xs, false⟩ (fun j => rfl) _ _ _
    · rfl
  · rw [afterFind_eq]
    simp only [reflectValueOf, reflectIndirect, Ty.kind, RValue.len]
    rcases dispatchSingle (selected eager) P _ c st with ⟨_ | err, st1⟩
    · simp only [ne_eq, not_true_eq_false, false_and, and_false, if_false]
      exact afterFindLoop_congr P c eager ⟨.array n e, .array n e xs, true⟩
        ⟨.slice n e, .slice n e xs, false⟩ (fun j => rfl) _ _ _
    · rfl
  · have hta : typeAssert P (Model.Value ⟨some (.ptr (.pointer t) v)⟩) (selected eager) = none := by
      simp [typeAssert, typeOf, methodSet_pointer_pointer]
    rw [afterFind_eq, dispatchSingle_none _ _ _ _ _ hta]
    simp [reflectValueOf, reflectIndirect, Ty.kind]

/-! ## `afterFind` and its sequential reference definition -/

theorem afterFindLoop_ref (P : Program) (c : Connection) (eager : Bool) (rv : RValue)
    (e : Ty) :
    ∀ (ys done : List Val) (st : State), ElemsOf rv e (done ++ ys) →
      (afterFindLoop P c eager rv ys.length done.length st).1 =
        .returned (runHooks (selected eager) c
          (hooksFrom P (selected eager) done.length (ys.map (.ptr e))) st.world).1 ∧
      (afterFindLoop P c eager rv ys.length done.length st).2.world =
        (runHooks (selected eager) c
          (hooksFrom P (selected eager) done.length (ys.map (.ptr e))) st.world).2.1 ∧
      (afterFindLoop P c eager rv ys.length done.length st).2.calls =
        st.calls ++ (runHooks (selected eager) c
          (hooksFrom P (selected eager) done.length (ys.map (.ptr e))) st.world).2.2 := by
  intro ys
  induction ys with
  | nil =>
    intro done st _
    simp [afterFindLoop, hooksFrom, runHooks]
  | cons y ys ih =>
    intro done st hel
    have hel2 : ElemsOf rv e ((done ++ [y]) ++ ys) := by
      simpa [List.append_assoc] using hel
    rw [List.length_cons, afterFindLoop_succ, index_addr_of_elems hel]
    simp only [List.map_cons, hooksFrom]
    cases hta : typeAssert P (some (.ptr e y)) (selected eager) with
    | none =>
      simp only []
      have hrec := ih (done ++ [y])
        { st with probes := st.probes ++ [⟨selected eager, some done.length⟩] } hel2
      simp only [List.length_append, List.length_singleton] at hrec
      exact hrec
    | some x =>
      simp only [runHooks]
      cases hr : (x.method.body x.recv c st.world).2 with
      | some err =>
        simp
      | none =>
        simp only []
        have hrec := ih (done ++ [y])
          { world := (x.method.body x.recv c st.world).1,
            calls := st.calls ++ [⟨selected eager, some done.length, x.recv, c, none⟩],
            probes := st.probes ++ [⟨selected eager, some done.length⟩] } hel2
        simp only [List.length_append, List.length_singleton] at hrec
        obtain ⟨h1, h2, h3⟩ := hrec
        refine ⟨h1, h2, ?_⟩
        rw [h3]
        simp

theorem afterFindRest_seq_ref (P : Program) (c : Connection) (eager : Bool) (rv : RValue)
    (e : Ty) (xs : List Val) (st : State) (hel : ElemsOf rv e xs) (hlen : rv.len = xs.length) :
    (afterFindLoop P c eager rv rv.len 0 st).1 =
      .returned (runHooks (selected eager) c
        (hooksFrom P (selected eager) 0 (xs.map (.ptr e))) st.world).1 ∧
    (afterFindLoop P c eager rv rv.len 0 st).2.world =
      (runHooks (selected eager) c
        (hooksFrom P (selected eager) 0 (xs.map (.ptr e))) st.world).2.1 ∧
    (afterFindLoop P c eager rv rv.len 0 st).2.calls =
      st.calls ++ (runHooks (selected eager) c
        (hooksFrom P (selected eager) 0 (xs.map (.ptr e))) st.world).2.2 := by
  have h := afterFindLoop_ref P c eager rv e xs [] st (by simpa using hel)
  rw [List.length_nil] at h
  rw [hlen]
  exact h

/-- The part of `afterFind` after its first statement against the reference
run of the element hooks, on every wrapped value but a non-empty array held by
value. -/
theorem afterFindRest_ref (P : Program) (m : Model) (c : Connection) (eager : Bool)
    (st : State) (hnp : ¬ ∃ n e y ys, m.Value = some (.array n e (y :: ys))) :
    (afterFindRest P m c eager st).1 =
      .returned (runHooks (selected eager) c
        (hooksFrom P (selected eager) 0 (elemAddrs m)) st.world).1 ∧
    (afterFindRest P m c eager st).2.world =
      (runHooks (selected eager) c
        (hooksFrom P (selected eager) 0 (elemAddrs m)) st.world).2.1 ∧
    (afterFindRest P m c eager st).2.calls =
      st.calls ++ (runHooks (selected eager) c
        (hooksFrom P (selected eager) 0 (elemAddrs m)) st.world).2.2 := by
  obtain ⟨v⟩ := m
  cases v with
  | none => simp [afterFindRest, elemAddrs, reflectValueOf, reflectIndirect, hooksFrom, runHooks]
  | some v =>
    cases v with
    | record n d =>
      simp [afterFindRest, elemAddrs, reflectValueOf, reflectIndirect, typeOf, Ty.kind,
        hooksFrom, runHooks]
    | nilPtr t =>
      simp [afterFindRest, elemAddrs, reflectValueOf, reflectIndirect, hooksFrom, runHooks]
    | ptr t v =>
      simp only [afterFindRest, elemAddrs, reflectValueOf, reflectIndirect]
      by_cases hk : t.kind = .Slice ∨ t.kind = .Array
      · have hnk : ¬ (t.kind ≠ .Slice ∧ t.kind ≠ .Array) := by
          rcases hk with hk | hk <;> simp [hk]
        rw [if_neg hnk, if_pos hk]
        cases v with
        | record n d => simp [RValue.len, afterFindLoop, hooksFrom, runHooks]
        | ptr t2 v2 => simp [RValue.len, afterFindLoop, hooksFrom, runHooks]
        | nilPtr t2 => simp [RValue.len, afterFindLoop, hooksFrom, runHooks]
        | slice n e xs =>
          exact afterFindRest_seq_ref P c eager ⟨t, .slice n e xs, true⟩ e xs st
            (Or.inl ⟨n, rfl⟩) rfl
        | array n e xs =>
          exact afterFindRest_seq_ref P c eager ⟨t, .array n e xs, true⟩ e xs st
            (Or.inr ⟨n, rfl, rfl⟩) rfl
      · have hnk : t.kind ≠ .Slice ∧ t.kind ≠ .Array := by
          constructor
          · intro h; exact hk (Or.inl h)
          · intro h; exact hk (Or.inr h)
        rw [if_pos hnk, if_neg hk]
        simp [hooksFrom, runHooks]
    | slice n e xs =>
      simp only [afterFindRest, elemAddrs, reflectValueOf, reflectIndirect, typeOf, Ty.kind,
        ne_eq, not_true_eq_false, false_and, if_false, true_or, if_true]
      exact afterFindRest_seq_ref P c eager ⟨.slice n e, .slice n e xs, false⟩ e xs st
        (Or.inl ⟨n, rfl⟩) rfl
    | array n e xs =>
      cases xs with
      | nil =>
        simp [afterFindRest, elemAddrs, reflectValueOf, reflectIndirect, typeOf, Ty.kind,
          RValue.len, afterFindLoop, hooksFrom, runHooks]
      | cons y ys => exact absurd ⟨n, e, y, ys, rfl⟩ hnp

/-- Refinement, on every wrapped value but a non-empty array held by value:
the result of `afterFind`, the world it leaves and its call log are those of
the sequential reference definition, the selected hooks (the one of the
wrapped value if it implements it, then those of the elements whose address
implements it, in index order) run with stop at the first error. -/
theorem afterFind_refines_reference (P : Program) (m : Model) (c : Connection)
    (eager : Bool) (w : World)
    (hnp : ¬ ∃ n e y ys, m.Value = some (.array n e (y :: ys))) :
    (afterFind P m c eager (State.init w)).1 = .returned (afterFindRef P m c eager w).1 ∧
    (afterFind P m c eager (State.init w)).2.world = (afterFindRef P m c eager w).2.1 ∧
    (afterFind P m c eager (State.init w)).2.calls = (afterFindRef P m c eager w).2.2 := by
  rw [afterFind_eq_rest]
  unfold afterFindRef selectedHooks
  cases hta : typeAssert P m.Value (selected eager) with
  | none =>
    rw [dispatchSingle_none _ _ _ _ _ hta]
    simp only [List.nil_append]
    have h := afterFindRest_ref P m c eager
      { State.init w with probes := (State.init w).probes ++ [⟨selected eager, none⟩] } hnp
    simpa [State.init] using h
  | some x =>
    rw [dispatchSingle_some _ _ _ _ _ x hta]
    simp only [List.singleton_append, runHooks]
    have hw : (State.init w).world = w := rfl
    rw [hw]
    cases hr : (x.method.body x.recv c w).2 with
    | some err =>
      simp [State.init]
    | none =>
      simp only []
      have h := afterFindRest_ref P m c eager
        { world := (x.method.body x.recv c w).1,
          calls := (State.init w).calls ++ [⟨selected eager, none, x.recv, c, none⟩],
          probes := (State.init w).probes ++ [⟨selected eager, none⟩] } hnp
      obtain ⟨h1, h2, h3⟩ := h
      refine ⟨h1, h2, ?_⟩
      rw [h3]
      simp [State.init]

/-- C17, at the failing input (three demo users, the one at index 1 failing
with error 101, held in an array passed by value): the reference definition
runs the hooks of elements 0 and 1 and returns 101, while `afterFind` panics
at `rv.Index(0).Addr()` with an empty call log. On the same array behind a
pointer the two agree. -/
theorem afterFind_differs_from_reference_array_by_value :
    (afterFindRef demo ⟨some (.array none tUser [.record 1 0, .record 1 101, .record 1 2])⟩
      conn0 false 0).1 = some 101 ∧
    (afterFindRef demo ⟨some (.array none tUser [.record 1 0, .record 1 101, .record 1 2])⟩
      conn0 false 0).2.2.map (fun x => x.site) = [some 0, some 1] ∧
    (afterFind demo ⟨some (.array none tUser [.record 1 0, .record 1 101, .record 1 2])⟩
      conn0 false (State.init 0)).1 = .panicked ∧
    (afterFind demo ⟨some (.array none tUser [.record 1 0, .record 1 101, .record 1 2])⟩
      conn0 false (State.init 0)).2.calls = [] ∧
    (afterFind demo ⟨some (.ptr (.array none tUser)
      (.array none tUser [.record 1 0, .record 1 101, .record 1 2]))⟩
      conn0 false (State.init 0)).1 = .returned (some 101) :=
  ⟨rfl, rfl, rfl, rfl, rfl⟩

/-! ## Deleting the elements that do not implement the hook -/

theorem typeOf_deleteAbsent (P : Program) (k : HookKind) (v : Val) :
    typeOf (deleteAbsent P k v) = typeOf v := by
  cases v <;> rfl

theorem typeAssert_deleteAbsent_none (P : Program) (k k2 : HookKind) (v : Val)
    (h : typeAssert P (some v) k2 = none) :
    typeAssert P (some (deleteAbsent P k v)) k2 = none := by
  unfold typeAssert at h ⊢
  simp only [typeOf_deleteAbsent]
  cases hm : methodSet P (typeOf v) k2 with
  | none => rfl
  | some x => simp [hm] at h

theorem typeAssert_deleteAbsent_some (P : Program) (k k2 : HookKind) (v : Val) (x : Hookable)
    (h : typeAssert P (some v) k2 = some x) :
    typeAssert P (some (deleteAbsent P k v)) k2 = some ⟨deleteAbsent P k x.recv, x.method⟩ := by
  have hr := typeAssert_recv h
  have hmeth := typeAssert_method h
  simp only [Option.some.injEq] at hr
  subst hr
  unfold typeAssert
  simp only [typeOf_deleteAbsent, hmeth]

theorem withoutAbsent_of_implementing (P : Program) (k : HookKind) (m : Model) (e : Ty)
    (xs : List Val) (hw : WrapsSeq m e xs) (hi : implementing P e k = true) :
    withoutAbsent P k m = m := by
  obtain ⟨v⟩ := m
  rcases hw with ⟨n, hv⟩ | ⟨n, hv⟩ | ⟨n, hv⟩ <;>
  · simp only at hv
    subst hv
    simp [withoutAbsent, deleteAbsent, deleteAbsentSeq, hi]

theorem withoutAbsent_of_absent (P : Program) (k : HookKind) (m : Model) (e : Ty)
    (xs : List Val) (hw : WrapsSeq m e xs) (hi : implementing P e k = false) :
    WrapsSeq (withoutAbsent P k m) e [] := by
  obtain ⟨v⟩ := m
  rcases hw with ⟨n, hv⟩ | ⟨n, hv⟩ | ⟨n, hv⟩
  · simp only at hv
    subst hv
    exact Or.inl ⟨n, by simp [withoutAbsent, deleteAbsent, deleteAbsentSeq, hi]⟩
  · simp only at hv
    subst hv
    exact Or.inr (Or.inl ⟨n, by simp [withoutAbsent, deleteAbsent, deleteAbsentSeq, hi]⟩)
  · simp only at hv
    subst hv
    exact Or.inr (Or.inr ⟨n, by simp [withoutAbsent, deleteAbsent, deleteAbsentSeq, hi]⟩)

/-- C12, the counterexample: the demo type `Rows` (a slice of `Plain`, whose
address implements nothing) declares an `AfterFind` that fails on an empty
receiver. On the one-element collection `afterFind` returns nil; on the
collection with the non-implementing element deleted it returns the error 55:
the hook of the collection is run on another receiver. -/
theorem afterFind_differs_without_absent :
    implementing demoRows (.record 3) .AfterFind = false ∧
    (afterFind demoRows ⟨some (.slice (some 5) (.record 3) [.record 3 0])⟩ conn0 false
      (State.init 0)).1 = .returned none ∧
    (withoutAbsent demoRows .AfterFind ⟨some (.slice (some 5) (.record 3) [.record 3 0])⟩).Value =
      some (.slice (some 5) (.record 3) []) ∧
    (afterFind demoRows
      (withoutAbsent demoRows .AfterFind ⟨some (.slice (some 5) (.record 3) [.record 3 0])⟩)
      conn0 false (State.init 0)).1 = .returned (some 55) :=
  ⟨rfl, rfl, rfl, rfl⟩

/-- C12, amended: on a slice, a pointer to a slice or a pointer to an array,
and provided the hook of the wrapped value itself, when the wrapped value
implements the selected hook, does the same on the collection with the
non-implementing elements deleted as on the collection, `afterFind` returns
the same result, leaves the same world and performs the same sequence of hook
invocations on both collections: the same hooks at the same places with the
same connection and results, and the very same calls on elements. An element
whose address does not implement the hook is probed and skipped: it produces
no error and does not stop the iteration, every element is probed and the
result is that of the first statement. -/
theorem afterFind_without_absent (P : Program) (m : Model) (c : Connection) (eager : Bool)
    (w : World) (e : Ty) (xs : List Val) (hw : WrapsSeq m e xs)
    (hv : ∀ x, typeAssert P m.Value (selected eager) = some x →
      x.method.body (deleteAbsent P (selected eager) x.recv) c w =
        x.method.body x.recv c w) :
    (afterFind P (withoutAbsent P (selected eager) m) c eager (State.init w)).1 =
      (afterFind P m c eager (State.init w)).1 ∧
    (afterFind P (withoutAbsent P (selected eager) m) c eager (State.init w)).2.world =
      (afterFind P m c eager (State.init w)).2.world ∧
    (afterFind P (withoutAbsent P (selected eager) m) c eager (State.init w)).2.calls.map
        Call.outline =
      (afterFind P m c eager (State.init w)).2.calls.map Call.outline ∧
    (afterFind P (withoutAbsent P (selected eager) m) c eager (State.init w)).2.calls.filter
        (fun x => x.site.isSome) =
      (afterFind P m c eager (State.init w)).2.calls.filter (fun x => x.site.isSome) ∧
    (implementing P e (selected eager) = false →
      (afterFind P m c eager (State.init w)).1 =
        .returned (dispatchSingle (selected eager) P m c (State.init w)).1 ∧
      ((dispatchSingle (selected eager) P m c (State.init w)).1 = none →
        (afterFind P m c eager (State.init w)).2.probes =
          ⟨selected eager, none⟩ :: elemProbes (selected eager) 0 xs.length)) := by
  cases hi : implementing P e (selected eager) with
  | true =>
    rw [withoutAbsent_of_implementing P (selected eager) m e xs hw hi]
    exact ⟨rfl, rfl, rfl, rfl, fun h => absurd h (by simp)⟩
  | false =>
    have hm : methodSet P (.pointer e) (selected eager) = none := by
      unfold implementing at hi
      cases hms : methodSet P (.pointer e) (selected eager) with
      | none => rfl
      | some h => simp [hms] at hi
    have hw2 := withoutAbsent_of_absent P (selected eager) m e xs hw hi
    obtain ⟨v, hval⟩ : ∃ v, m.Value = some v := by
      rcases hw with ⟨n, h⟩ | ⟨n, h⟩ | ⟨n, h⟩ <;> exact ⟨_, h⟩
    have hval2 : (withoutAbsent P (selected eager) m).Value =
        some (deleteAbsent P (selected eager) v) := by
      simp [withoutAbsent, hval]
    rw [afterFind_elems_absent P m c eager _ e xs hw hm,
      afterFind_elems_absent P (withoutAbsent P (selected eager) m) c eager _ e [] hw2 hm]
    cases hta : typeAssert P m.Value (selected eager) with
    | none =>
      have hta2 : typeAssert P (withoutAbsent P (selected eager) m).Value (selected eager) =
          none := by
        rw [hval2]
        rw [hval] at hta
        exact typeAssert_deleteAbsent_none P _ _ v hta
      rw [dispatchSingle_none _ _ _ _ _ hta, dispatchSingle_none _ _ _ _ _ hta2]
      simp [State.init, elemProbes]
    | some x =>
      have hta2 : typeAssert P (withoutAbsent P (selected eager) m).Value (selected eager) =
          some ⟨deleteAbsent P (selected eager) x.recv, x.method⟩ := by
        rw [hval2]
        rw [hval] at hta
        exact typeAssert_deleteAbsent_some P _ _ v x hta
      have hbody := hv x hta
      rw [dispatchSingle_some _ _ _ _ _ x hta, dispatchSingle_some _ _ _ _ _ _ hta2]
      have hw0 : (State.init w).world = w := rfl
      simp only [hw0, hbody]
      cases hr : (x.method.body x.recv c w).2 <;>
        simp [State.init, Call.outline, elemProbes]

/-- Witness of C12, amended: the demo type `Users` succeeds on any receiver,
the elements are of the demo type `Plain`, whose address implements nothing;
the run on the two elements and the run on none agree, and both elements are
probed. -/
theorem afterFind_without_absent_witness :
    (afterFind demo
      (withoutAbsent demo (selected false) ⟨some (.slice (some 2) (.record 3)
        [.record 3 0, .record 3 1])⟩) conn0 false (State.init 0)).1 =
      (afterFind demo ⟨some (.slice (some 2) (.record 3) [.record 3 0, .record 3 1])⟩ conn0
        false (State.init 0)).1 ∧
    (afterFind demo ⟨some (.slice (some 2) (.record 3) [.record 3 0, .record 3 1])⟩ conn0
      false (State.init 0)).2.probes =
      [⟨.AfterFind, none⟩, ⟨.AfterFind, some 0⟩, ⟨.AfterFind, some 1⟩] :=
  ⟨(afterFind_without_absent demo ⟨some (.slice (some 2) (.record 3)
      [.record 3 0, .record 3 1])⟩ conn0 false 0 (.record 3) [.record 3 0, .record 3 1]
      (Or.inl ⟨some 2, rfl⟩)
      (fun x hx => by
        have h2 : (some ⟨.slice (some 2) (.record 3) [.record 3 0, .record 3 1],
            ⟨false, fun _ _ w => (w + 10, none)⟩⟩ : Option Hookable) = some x := hx
        cases h2
        rfl)).1, rfl⟩

/-! ## The hook of the collection, then the hooks of its elements -/

/-- The hook of the collection and the hooks of its elements both apply in one
call, in that order, on every wrapped value but a non-empty array held by
value: when the wrapped value implements the selected hook and that hook
succeeds, the call log of `afterFind` is the call on the wrapped value
followed by the calls of the reference run of the element hooks, those of the
elements whose address implements the hook, in index order and up to the first
that fails, started in the world the hook of the wrapped value left; the
result of `afterFind` is the result of that run. -/
theorem afterFind_value_then_elements (P : Program) (m : Model) (c : Connection)
    (eager : Bool) (w : World) (x : Hookable)
    (hnp : ¬ ∃ n e y ys, m.Value = some (.array n e (y :: ys)))
    (hx : typeAssert P m.Value (selected eager) = some x)
    (hok : (x.method.body x.recv c w).2 = none) :
    (afterFind P m c eager (State.init w)).1 =
      .returned (runHooks (selected eager) c
        (hooksFrom P (selected eager) 0 (elemAddrs m)) (x.method.body x.recv c w).1).1 ∧
    (afterFind P m c eager (State.init w)).2.calls =
      ⟨selected eager, none, x.recv, c, none⟩ ::
        (runHooks (selected eager) c
          (hooksFrom P (selected eager) 0 (elemAddrs m)) (x.method.body x.recv c w).1).2.2 := by
  obtain ⟨h1, _, h3⟩ := afterFind_refines_reference P m c eager w hnp
  rw [h1, h3]
  unfold afterFindRef selectedHooks
  simp [hx, runHooks, hok]

/-- C13, at the failing input (two demo users in a value of the demo type
`Batch`, an array type, passed by value; `Batch` implements `AfterFind` and
succeeds, and so does `*User`): the call log is the call on the collection
alone and `afterFind` panics at `rv.Index(0).Addr()`, so no hook of an element
follows the hook of the collection. Behind a pointer the same collection gets
the call on the collection, then the calls on elements 0 and 1. The last two
lines are the same run in the embedding whose hooks can change the
collection. -/
theorem afterFind_value_then_elements_array_by_value :
    (afterFind demoBatch ⟨some (.array (some 6) tUser [.record 1 0, .record 1 1])⟩ conn0 false
      (State.init 0)).1 = .panicked ∧
    (afterFind demoBatch ⟨some (.array (some 6) tUser [.record 1 0, .record 1 1])⟩ conn0 false
      (State.init 0)).2.calls =
      [⟨.AfterFind, none, .array (some 6) tUser [.record 1 0, .record 1 1], conn0, none⟩] ∧
    implementing demoBatch tUser .AfterFind = true ∧
    (afterFind demoBatch
      ⟨some (.ptr (.array (some 6) tUser) (.array (some 6) tUser [.record 1 0, .record 1 1]))⟩
      conn0 false (State.init 0)).1 = .returned none ∧
    (afterFind demoBatch
      ⟨some (.ptr (.array (some 6) tUser) (.array (some 6) tUser [.record 1 0, .record 1 1]))⟩
      conn0 false (State.init 0)).2.calls.map (fun y => y.site) = [none, some 0, some 1] ∧
    (afterFindLive (liftProgram demoBatch)
      ⟨some (.array (some 6) tUser [.record 1 0, .record 1 1])⟩ conn0 false 3 0).1 =
      some .panicked ∧
    (afterFindLive (liftProgram demoBatch)
      ⟨some (.array (some 6) tUser [.record 1 0, .record 1 1])⟩ conn0 false 3 0).2.calls =
      [⟨.AfterFind, none, .array (some 6) tUser [.record 1 0, .record 1 1], conn0, none⟩] :=
  ⟨rfl, rfl, rfl, rfl, rfl, rfl, rfl⟩

/-! ## Hooks that change the wrapped collection: unfolding -/

theorem afterFindLoopLive_succ (P : LiveProgram) (c : Connection) (eager : Bool)
    (rv : RValue) (fuel i : Nat) (st : LiveState) :
    afterFindLoopLive P c eager rv (fuel + 1) i st =
      if i < (liveValue rv st.value).len then
        match ((liveValue rv st.value).index i).bind RValue.addr with
        | none =>
          (some .panicked, { st with maxLen := max st.maxLen (liveValue rv st.value).len })
        | some elem =>
          match typeAssertLive P (some elem.val) (selected eager) with
          | none =>
            afterFindLoopLive P c eager rv fuel (i + 1)
              { st with
                probes := st.probes ++ [⟨selected eager, some i⟩],
                maxLen := max st.maxLen (liveValue rv st.value).len }
          | some x =>
            match (x.method.body x.recv c st.world st.value).2 with
            | some err =>
              (some (.returned (some err)),
                { world := (x.method.body x.recv c st.world st.value).1,
                  calls := st.calls ++ [⟨selected eager, some i, x.recv, c, some err⟩],
                  probes := st.probes ++ [⟨selected eager, some i⟩],
                  value := setPointee st.value (x.method.store x.recv c st.world st.value),
                  maxLen := max st.maxLen (liveValue rv st.value).len })
            | none =>
              afterFindLoopLive P c eager rv fuel (i + 1)
                { world := (x.method.body x.recv c st.world st.value).1,
                  calls := st.calls ++ [⟨selected eager, some i, x.recv, c, none⟩],
                  probes := st.probes ++ [⟨selected eager, some i⟩],
                  value := setPointee st.value (x.method.store x.recv c st.world st.value),
                  maxLen := max st.maxLen (liveValue rv st.value).len }
      else
        (some (.returned none),
          { st with maxLen := max st.maxLen (liveValue rv st.value).len }) := by
  cases eager <;>
  · simp only [afterFindLoopLive, selected, probeLive, invokeLive, RValue.interface,
      Bool.false_eq_true, if_false, if_true]
    by_cases hlt : i < (liveValue rv st.value).len
    · simp only [hlt, if_true]
      cases ((liveValue rv st.value).index i).bind RValue.addr with
      | none => rfl
      | some elem =>
        simp only []
        cases typeAssertLive P (some elem.val) _ with
        | none => rfl
        | some x =>
          simp only []
          generalize (x.method.body x.recv c st.world st.value).2 = r
          cases r <;> rfl
    · simp only [hlt, if_false]

theorem afterFindValueLive_eq (P : LiveProgram) (m : Model) (c : Connection) (eager : Bool)
    (st : LiveState) :
    afterFindValueLive P m c eager st =
      match typeAssertLive P m.Value (selected eager) with
      | none => (none, { st with probes := st.probes ++ [⟨selected eager, none⟩] })
      | some x =>
        ((x.method.body x.recv c st.world st.value).2,
          { world := (x.method.body x.recv c st.world st.value).1,
            calls := st.calls ++
              [⟨selected eager, none, x.recv, c, (x.method.body x.recv c st.world st.value).2⟩],
            probes := st.probes ++ [⟨selected eager, none⟩],
            value := setPointee st.value (x.method.store x.recv c st.world st.value),
            maxLen := st.maxLen }) := by
  cases eager <;>
  · simp only [afterFindValueLive, selected, probeLive, invokeLive, Bool.false_eq_true,
      if_false, if_true]
    cases typeAssertLive P m.Value _ <;> rfl

theorem afterFindLive_eq (P : LiveProgram) (m : Model) (c : Connection) (eager : Bool)
    (fuel : Nat) (w : World) :
    afterFindLive P m c eager fuel w =
      match afterFindValueLive P m c eager (LiveState.init m w) with
      | (some err, st1) => (some (.returned (some err)), st1)
      | (none, st1) => afterFindRestLive P c eager fuel st1 := by
  rfl

/-! ## Hooks that change the wrapped collection: the number of calls -/

/-- The calls of the loop when hooks can change the collection: they are on
elements, at strictly increasing indices from `i` on, and there are no more of
them than the largest length the loop has read exceeds `i`. -/
theorem afterFindLoopLive_count (P : LiveProgram) (c : Connection) (eager : Bool)
    (rv : RValue) :
    ∀ (fuel i : Nat) (st : LiveState), ∃ (cs : List Call) (js : List Nat),
      (afterFindLoopLive P c eager rv fuel i st).2.calls = st.calls ++ cs ∧
      cs.map (fun x => x.site) = js.map some ∧
      js.Pairwise (fun a b => a < b) ∧
      (∀ j ∈ js, i ≤ j) ∧
      st.maxLen ≤ (afterFindLoopLive P c eager rv fuel i st).2.maxLen ∧
      cs.length ≤ (afterFindLoopLive P c eager rv fuel i st).2.maxLen - i := by
  intro fuel
  induction fuel with
  | zero =>
    intro i st
    exact ⟨[], [], by simp [afterFindLoopLive], rfl, List.Pairwise.nil, by simp,
      by simp [afterFindLoopLive], by simp⟩
  | succ fuel ih =>
    intro i st
    rw [afterFindLoopLive_succ]
    by_cases hlt : i < (liveValue rv st.value).len
    · rw [if_pos hlt]
      cases ((liveValue rv st.value).index i).bind RValue.addr with
      | none =>
        exact ⟨[], [], by simp, rfl, List.Pairwise.nil, by simp, by simp, by simp⟩
      | some elem =>
        simp only []
        cases typeAssertLive P (some elem.val) (selected eager) with
        | none =>
          simp only []
          obtain ⟨cs, js, h1, h2, h3, h4, h5, h6⟩ := ih (i + 1)
            { st with
              probes := st.probes ++ [⟨selected eager, some i⟩],
              maxLen := max st.maxLen (liveValue rv st.value).len }
          simp only at h5
          refine ⟨cs, js, h1, h2, h3, ?_, ?_, ?_⟩
          · intro j hj
            have := h4 j hj
            omega
          · have := le_max_left st.maxLen (liveValue rv st.value).len
            omega
          · omega
        | some x =>
          simp only []
          cases (x.method.body x.recv c st.world st.value).2 with
          | some err =>
            simp only []
            refine ⟨[⟨selected eager, some i, x.recv, c, some err⟩], [i], rfl, rfl,
              List.pairwise_singleton _ _, by simp, le_max_left _ _, ?_⟩
            have := le_max_right st.maxLen (liveValue rv st.value).len
            simp only [List.length_singleton]
            omega
          | none =>
            simp only []
            obtain ⟨cs, js, h1, h2, h3, h4, h5, h6⟩ := ih (i + 1)
              { world := (x.method.body x.recv c st.world st.value).1,
                calls := st.calls ++ [⟨selected eager, some i, x.recv, c, none⟩],
                probes := st.probes ++ [⟨selected eager, some i⟩],
                value := setPointee st.value (x.method.store x.recv c st.world st.value),
                maxLen := max st.maxLen (liveValue rv st.value).len }
            simp only at h5
            have hl := le_max_left st.maxLen (liveValue rv st.value).len
            have hr := le_max_right st.maxLen (liveValue rv st.value).len
            refine ⟨⟨selected eager, some i, x.recv, c, none⟩ :: cs, i :: js, ?_, ?_, ?_, ?_,
              ?_, ?_⟩
            · rw [h1]; simp
            · simp [h2]
            · rw [List.pairwise_cons]
              refine ⟨?_, h3⟩
              intro j hj
              have := h4 j hj
              omega
            · intro j hj
              rcases List.mem_cons.mp hj with rfl | hj
              · exact le_refl _
              · have := h4 j hj
                omega
            · omega
            · simp only [List.length_cons]
              omega
    · rw [if_neg hlt]
      exact ⟨[], [], by simp, rfl, List.Pairwise.nil, by simp, le_max_left _ _, by simp⟩

theorem afterFindRestLive_count (P : LiveProgram) (c : Connection) (eager : Bool)
    (fuel : Nat) (st : LiveState) :
    ∃ (cs : List Call) (js : List Nat),
      (afterFindRestLive P c eager fuel st).2.calls = st.calls ++ cs ∧
      cs.map (fun x => x.site) = js.map some ∧
      js.Pairwise (fun a b => a < b) ∧
      st.maxLen ≤ (afterFindRestLive P c eager fuel st).2.maxLen ∧
      cs.length ≤ (afterFindRestLive P c eager fuel st).2.maxLen := by
  unfold afterFindRestLive
  cases reflectIndirect (reflectValueOf st.value) with
  | none => exact ⟨[], [], by simp, rfl, List.Pairwise.nil, le_refl _, by simp⟩
  | some rv =>
    simp only []
    by_cases hk : rv.typ.kind ≠ .Slice ∧ rv.typ.kind ≠ .Array
    · rw [if_pos hk]
      exact ⟨[], [], by simp, rfl, List.Pairwise.nil, le_refl _, by simp⟩
    · rw [if_neg hk]
      obtain ⟨cs, js, h1, h2, h3, _, h5, h6⟩ := afterFindLoopLive_count P c eager rv fuel 0 st
      exact ⟨cs, js, h1, h2, h3, h5, by omega⟩

/-- The call log of `afterFindLive`, whatever the hooks do to the collection
and however long the loop is let run: at most one call on the wrapped value,
then calls on elements at strictly increasing indices, no more of them than
the largest length the loop has read. -/
theorem afterFindLive_count (P : LiveProgram) (m : Model) (c : Connection) (eager : Bool)
    (fuel : Nat) (w : World) :
    ((afterFindLive P m c eager fuel w).2.calls.map fun x => x.site).Nodup ∧
    (afterFindLive P m c eager fuel w).2.calls.length ≤
      (afterFindLive P m c eager fuel w).2.maxLen + 1 := by
  have hnodup : ∀ (js : List Nat), js.Pairwise (fun a b => a < b) →
      (none :: js.map some).Nodup ∧ (js.map some).Nodup := by
    intro js hjs
    have h2 : (js.map some).Nodup :=
      (hjs.imp (fun hab => Nat.ne_of_lt hab)).map some
        (fun a b hab hsome => hab (Option.some.inj hsome))
    exact ⟨List.nodup_cons.mpr ⟨by simp, h2⟩, h2⟩
  rw [afterFindLive_eq, afterFindValueLive_eq]
  simp only [LiveState.init, List.nil_append]
  cases typeAssertLive P m.Value (selected eager) with
  | none =>
    simp only []
    obtain ⟨cs, js, h1, h2, h3, _, h5⟩ := afterFindRestLive_count P c eager fuel
      ⟨w, [], [⟨selected eager, none⟩], m.Value, 0⟩
    rw [h1]
    simp only [List.nil_append]
    exact ⟨by rw [h2]; exact (hnodup js h3).2, by omega⟩
  | some x =>
    simp only []
    cases (x.method.body x.recv c w m.Value).2 with
    | some err =>
      simp
    | none =>
      simp only []
      obtain ⟨cs, js, h1, h2, h3, _, h5⟩ := afterFindRestLive_count P c eager fuel
        ⟨(x.method.body x.recv c w m.Value).1, [⟨selected eager, none, x.recv, c, none⟩],
          [⟨selected eager, none⟩], setPointee m.Value (x.method.store x.recv c w m.Value), 0⟩
      rw [h1]
      simp only [List.singleton_append, List.map_cons, List.length_cons]
      exact ⟨by rw [h2]; exact (hnodup js h3).1, by omega⟩

/-! ## Hooks that keep the length of the wrapped collection -/

theorem typeAssertLive_declared {P : LiveProgram} {v : Option Val} {k : HookKind}
    {x : LiveHookable} (hx : typeAssertLive P v k = some x) :
    ∃ n, P n k = some x.method := by
  unfold typeAssertLive at hx
  cases v with
  | none => simp at hx
  | some y =>
    simp only at hx
    cases hm : methodSetLive P (typeOf y) k with
    | none => simp [hm] at hx
    | some h =>
      simp only [hm, Option.some.injEq] at hx
      subst hx
      simp only
      have hd : ∀ t b, declaredLive P t k b = some h → ∃ n, P n k = some h := by
        intro t b hdecl
        unfold declaredLive at hdecl
        cases hn : t.defined with
        | none => simp [hn] at hdecl
        | some n =>
          simp only [hn] at hdecl
          cases hp : P n k with
          | none => simp [hp] at hdecl
          | some h2 =>
            simp only [hp] at hdecl
            split at hdecl
            · simp only [Option.some.injEq] at hdecl
              subst hdecl
              exact ⟨n, hp⟩
            · simp at hdecl
      unfold methodSetLive at hm
      cases hty : typeOf y with
      | record n => rw [hty] at hm; exact hd _ _ hm
      | pointer b => rw [hty] at hm; exact hd _ _ hm
      | slice n e => rw [hty] at hm; exact hd _ _ hm
      | array n e => rw [hty] at hm; exact hd _ _ hm

theorem len_eq_valLen (rv : RValue) : rv.len = valLen rv.val := by
  obtain ⟨t, v, a⟩ := rv
  cases v <;> rfl

theorem liveValue_len_setPointee (rv : RValue) (cur : Option Val) (p2 : Val)
    (h : ∀ t p, cur = some (.ptr t p) → valLen p2 = valLen p) :
    (liveValue rv (setPointee cur p2)).len = (liveValue rv cur).len := by
  cases cur with
  | none => rfl
  | some v =>
    cases v with
    | ptr t p =>
      simp only [setPointee, liveValue, len_eq_valLen]
      exact h t p rfl
    | record n d => rfl
    | nilPtr t => rfl
    | slice n e xs => rfl
    | array n e xs => rfl

theorem liveValue_self {cur : Option Val} {rv : RValue}
    (h : reflectIndirect (reflectValueOf cur) = some rv) : liveValue rv cur = rv := by
  cases cur with
  | none => rfl
  | some v =>
    cases v with
    | ptr t p =>
      simp only [reflectValueOf, reflectIndirect, Option.some.injEq] at h
      subst h
      rfl
    | record n d => rfl
    | nilPtr t => rfl
    | slice n e xs => rfl
    | array n e xs => rfl

/-- When no hook changes the length of the collection, the loop comes to its
end within as many turns as there are elements left, plus the one that finds
the end, and reads no other length than that one. -/
theorem afterFindLoopLive_returns (P : LiveProgram) (c : Connection) (eager : Bool)
    (rv : RValue) (hK : KeepsLength P) :
    ∀ (fuel i : Nat) (st : LiveState), (liveValue rv st.value).len - i < fuel →
      (afterFindLoopLive P c eager rv fuel i st).1 ≠ none ∧
      (afterFindLoopLive P c eager rv fuel i st).2.maxLen ≤
        max st.maxLen (liveValue rv st.value).len := by
  intro fuel
  induction fuel with
  | zero =>
    intro i st h
    omega
  | succ fuel ih =>
    intro i st h
    rw [afterFindLoopLive_succ]
    by_cases hlt : i < (liveValue rv st.value).len
    · rw [if_pos hlt]
      cases ((liveValue rv st.value).index i).bind RValue.addr with
      | none => exact ⟨by simp, le_refl _⟩
      | some elem =>
        simp only []
        cases hta : typeAssertLive P (some elem.val) (selected eager) with
        | none =>
          simp only []
          have hrec := ih (i + 1)
            { st with
              probes := st.probes ++ [⟨selected eager, some i⟩],
              maxLen := max st.maxLen (liveValue rv st.value).len } (by simp only; omega)
          simp only at hrec
          exact ⟨hrec.1, by have := hrec.2; simp only [max_assoc, max_self] at this; exact this⟩
        | some x =>
          simp only []
          cases (x.method.body x.recv c st.world st.value).2 with
          | some err => exact ⟨by simp, le_refl _⟩
          | none =>
            simp only []
            obtain ⟨n, hn⟩ := typeAssertLive_declared hta
            have hlen : (liveValue rv (setPointee st.value
                (x.method.store x.recv c st.world st.value))).len =
                (liveValue rv st.value).len := by
              apply liveValue_len_setPointee
              intro t p hcur
              rw [hcur]
              exact hK n _ _ hn _ _ _ t p
            have hrec := ih (i + 1)
              { world := (x.method.body x.recv c st.world st.value).1,
                calls := st.calls ++ [⟨selected eager, some i, x.recv, c, none⟩],
                probes := st.probes ++ [⟨selected eager, some i⟩],
                value := setPointee st.value (x.method.store x.recv c st.world st.value),
                maxLen := max st.maxLen (liveValue rv st.value).len }
              (by simp only [hlen]; omega)
            simp only [hlen] at hrec
            exact ⟨hrec.1, by
              have := hrec.2; simp only [max_assoc, max_self] at this; exact this⟩
    · rw [if_neg hlt]
      exact ⟨by simp, le_refl _⟩

theorem afterFindRestLive_returns (P : LiveProgram) (c : Connection) (eager : Bool)
    (hK : KeepsLength P) (fuel N : Nat) (st : LiveState)
    (hN : ∀ rv, reflectIndirect (reflectValueOf st.value) = some rv → rv.len = N)
    (hf : N < fuel) (h0 : st.maxLen ≤ N) :
    (afterFindRestLive P c eager fuel st).1 ≠ none ∧
    (afterFindRestLive P c eager fuel st).2.maxLen ≤ N := by
  unfold afterFindRestLive
  cases hri : reflectIndirect (reflectValueOf st.value) with
  | none => exact ⟨by simp, h0⟩
  | some rv =>
    simp only []
    by_cases hk : rv.typ.kind ≠ .Slice ∧ rv.typ.kind ≠ .Array
    · rw [if_pos hk]
      exact ⟨by simp, h0⟩
    · rw [if_neg hk]
      have hlv : (liveValue rv st.value).len = N := by
        rw [liveValue_self hri]
        exact hN rv hri
      obtain ⟨h1, h2⟩ := afterFindLoopLive_returns P c eager rv hK fuel 0 st (by omega)
      refine ⟨h1, ?_⟩
      rw [hlv] at h2
      have : max st.maxLen N = N := max_eq_right h0
      omega

theorem seqLen_setPointee (m : Model) (p2 : Val)
    (h : ∀ t p, m.Value = some (.ptr t p) → valLen p2 = valLen p) :
    ∀ rv, reflectIndirect (reflectValueOf (setPointee m.Value p2)) = some rv →
      rv.len = seqLen m := by
  intro rv hrv
  unfold seqLen
  obtain ⟨v⟩ := m
  cases v with
  | none => simp [setPointee, reflectValueOf, reflectIndirect] at hrv
  | some v =>
    cases v with
    | ptr t p =>
      simp only [setPointee, reflectValueOf, reflectIndirect, Option.some.injEq] at hrv
      subst hrv
      simp only [reflectValueOf, reflectIndirect, len_eq_valLen]
      exact h t p rfl
    | record n d =>
      simp only [setPointee] at hrv
      rw [hrv]
    | nilPtr t =>
      simp only [setPointee] at hrv
      rw [hrv]
    | slice n e xs =>
      simp only [setPointee] at hrv
      rw [hrv]
    | array n e xs =>
      simp only [setPointee] at hrv
      rw [hrv]

/-- When no hook changes the length of the collection, `afterFindLive` comes
to its end as soon as it is given more turns than the collection has elements
at the call, and the loop reads no length above that one. -/
theorem afterFindLive_returns (P : LiveProgram) (m : Model) (c : Connection) (eager : Bool)
    (fuel : Nat) (w : World) (hK : KeepsLength P) (hf : seqLen m < fuel) :
    (afterFindLive P m c eager fuel w).1 ≠ none ∧
    (afterFindLive P m c eager fuel w).2.maxLen ≤ seqLen m := by
  rw [afterFindLive_eq, afterFindValueLive_eq]
  simp only [LiveState.init, List.nil_append]
  cases hta : typeAssertLive P m.Value (selected eager) with
  | none =>
    simp only []
    apply afterFindRestLive_returns P c eager hK fuel (seqLen m) _ _ hf (Nat.zero_le _)
    intro rv hrv
    simp only at hrv
    unfold seqLen
    rw [hrv]
  | some x =>
    simp only []
    cases (x.method.body x.recv c w m.Value).2 with
    | some err => exact ⟨by simp, Nat.zero_le _⟩
    | none =>
      simp only []
      obtain ⟨n, hn⟩ := typeAssertLive_declared hta
      apply afterFindRestLive_returns P c eager hK fuel (seqLen m) _ _ hf (Nat.zero_le _)
      intro rv hrv
      simp only at hrv
      apply seqLen_setPointee m _ _ rv hrv
      intro t p hcur
      rw [hcur]
      exact hK n _ _ hn _ _ _ t p

/-! ## `afterFind` is `afterFindLive` for hooks that leave the collection alone -/

theorem declaredLive_lift (P : Program) (t : Ty) (k : HookKind) (b : Bool) :
    declaredLive (liftProgram P) t k b =
      match declared P t k b with
      | none => none
      | some h => some (liftMethod h) := by
  unfold declaredLive declared liftProgram
  cases t.defined with
  | none => rfl
  | some n =>
    simp only []
    cases P n k with
    | none => rfl
    | some h =>
      simp only [liftMethod]
      split <;> rfl

theorem typeAssertLive_lift (P : Program) (v : Option Val) (k : HookKind) :
    typeAssertLive (liftProgram P) v k =
      match typeAssert P v k with
      | none => none
      | some x => some ⟨x.recv, liftMethod x.method⟩ := by
  unfold typeAssertLive typeAssert
  cases v with
  | none => rfl
  | some y =>
    simp only []
    have hm : methodSetLive (liftProgram P) (typeOf y) k =
        match methodSet P (typeOf y) k with
        | none => none
        | some h => some (liftMethod h) := by
      unfold methodSetLive methodSet
      cases typeOf y <;> exact declaredLive_lift P _ k _
    rw [hm]
    cases methodSet P (typeOf y) k <;> rfl

theorem setPointee_pointeeOf (cur : Option Val) : setPointee cur (pointeeOf cur) = cur := by
  cases cur with
  | none => rfl
  | some v => cases v <;> rfl

theorem keepsLength_lift (P : Program) : KeepsLength (liftProgram P) := by
  intro n k h hn recv c w t p
  unfold liftProgram at hn
  cases hp : P n k with
  | none => simp [hp] at hn
  | some h0 =>
    simp only [hp, Option.some.injEq] at hn
    subst hn
    rfl

/-- The loop of `afterFindLive`, run on a program whose hooks leave the
collection alone and given one turn more than there are elements left, is the
loop of `afterFind`. -/
theorem afterFindLoopLive_lift (P : Program) (c : Connection) (eager : Bool) (rv : RValue) :
    ∀ (n fuel i : Nat) (st : LiveState), liveValue rv st.value = rv → i + n = rv.len →
      n < fuel →
      (afterFindLoopLive (liftProgram P) c eager rv fuel i st).1 =
        some (afterFindLoop P c eager rv n i st.toState).1 ∧
      (afterFindLoopLive (liftProgram P) c eager rv fuel i st).2.toState =
        (afterFindLoop P c eager rv n i st.toState).2 ∧
      (afterFindLoopLive (liftProgram P) c eager rv fuel i st).2.value = st.value := by
  intro n
  induction n with
  | zero =>
    intro fuel i st hv hin hf
    obtain ⟨f, rfl⟩ : ∃ f, fuel = f + 1 := ⟨fuel - 1, by omega⟩
    rw [afterFindLoopLive_succ, hv, if_neg (by omega)]
    exact ⟨rfl, rfl, rfl⟩
  | succ n ih =>
    intro fuel i st hv hin hf
    obtain ⟨f, rfl⟩ : ∃ f, fuel = f + 1 := ⟨fuel - 1, by omega⟩
    rw [afterFindLoopLive_succ, afterFindLoop_succ, hv, if_pos (by omega)]
    cases (rv.index i).bind RValue.addr with
    | none => exact ⟨rfl, rfl, rfl⟩
    | some elem =>
      simp only []
      rw [typeAssertLive_lift]
      cases typeAssert P (some elem.val) (selected eager) with
      | none =>
        simp only []
        exact ih f (i + 1)
          { st with
            probes := st.probes ++ [⟨selected eager, some i⟩],
            maxLen := max st.maxLen rv.len } hv (by omega) (by omega)
      | some x =>
        simp only [liftMethod, LiveState.toState]
        cases (x.method.body x.recv c st.world).2 with
        | some err =>
          simp [setPointee_pointeeOf]
        | none =>
          simp only []
          have hrec := ih f (i + 1)
            { world := (x.method.body x.recv c st.world).1,
              calls := st.calls ++ [⟨selected eager, some i, x.recv, c, none⟩],
              probes := st.probes ++ [⟨selected eager, some i⟩],
              value := setPointee st.value (pointeeOf st.value),
              maxLen := max st.maxLen rv.len }
            (by simp only [setPointee_pointeeOf]; exact hv) (by omega) (by omega)
          simp only [setPointee_pointeeOf, LiveState.toState] at hrec ⊢
          exact hrec

/-- The dispatcher `afterFind` is `afterFindLive` on the programs whose hooks
leave the wrapped collection alone: given more turns than the collection has
elements, `afterFindLive` ends with the outcome, the world and the logs of
`afterFind`. -/
theorem afterFindLive_lift (P : Program) (m : Model) (c : Connection) (eager : Bool)
    (fuel : Nat) (w : World) (hf : seqLen m < fuel) :
    (afterFindLive (liftProgram P) m c eager fuel w).1 =
      some (afterFind P m c eager (State.init w)).1 ∧
    (afterFindLive (liftProgram P) m c eager fuel w).2.toState =
      (afterFind P m c eager (State.init w)).2 := by
  have hrest : ∀ (st : LiveState), st.value = m.Value →
      (afterFindRestLive (liftProgram P) c eager fuel st).1 =
        some (afterFindRest P m c eager st.toState).1 ∧
      (afterFindRestLive (liftProgram P) c eager fuel st).2.toState =
        (afterFindRest P m c eager st.toState).2 := by
    intro st hst
    unfold afterFindRestLive afterFindRest
    rw [hst]
    cases hri : reflectIndirect (reflectValueOf m.Value) with
    | none => exact ⟨rfl, rfl⟩
    | some rv =>
      simp only []
      by_cases hk : rv.typ.kind ≠ .Slice ∧ rv.typ.kind ≠ .Array
      · rw [if_pos hk, if_pos hk]
        exact ⟨rfl, rfl⟩
      · rw [if_neg hk, if_neg hk]
        have hlen : seqLen m = rv.len := by
          unfold seqLen
          rw [hri]
        obtain ⟨h1, h2, _⟩ := afterFindLoopLive_lift P c eager rv rv.len fuel 0 st
          (by rw [hst]; exact liveValue_self hri) (by omega) (by omega)
        exact ⟨h1, h2⟩
  rw [afterFindLive_eq, afterFindValueLive_eq, typeAssertLive_lift, afterFind_eq_rest]
  simp only [LiveState.init, List.nil_append]
  cases hta : typeAssert P m.Value (selected eager) with
  | none =>
    rw [dispatchSingle_none _ _ _ _ _ hta]
    simp only []
    exact hrest ⟨w, [], [⟨selected eager, none⟩], m.Value, 0⟩ rfl
  | some x =>
    rw [dispatchSingle_some _ _ _ _ _ x hta]
    simp only [liftMethod, State.init, List.nil_append]
    cases (x.method.body x.recv c w).2 with
    | some err => exact ⟨rfl, rfl⟩
    | none =>
      simp only []
      exact hrest ⟨(x.method.body x.recv c w).1, [⟨selected eager, none, x.recv, c, none⟩],
        [⟨selected eager, none⟩], setPointee m.Value (pointeeOf m.Value), 0⟩
        (setPointee_pointeeOf m.Value)

/-! ## The number of hook invocations -/

/-- C19, the counterexample: the demo type `Grow`, a slice type, declares
`(*Grow).AfterFind`, which appends one user to the collection and succeeds. On
a pointer to a `Grow` of length 1, `afterFind` calls the hook of the
collection, builds `rv` from the collection of length 2 the hook left, and
calls the hooks of elements 0 and 1: three invocations on a collection of
length 1, one more than `N + 1`. -/
theorem afterFindLive_grow_three_calls :
    seqLen growModel = 1 ∧
    (afterFindLive demoGrow growModel conn0 false 5 0).1 = some (.returned none) ∧
    (afterFindLive demoGrow growModel conn0 false 5 0).2.calls.length = 3 ∧
    (afterFindLive demoGrow growModel conn0 false 5 0).2.calls.map (fun x => x.site) =
      [none, some 0, some 1] ∧
    (afterFindLive demoGrow growModel conn0 false 5 0).2.maxLen = 2 :=
  ⟨rfl, rfl, rfl, rfl, rfl⟩

/-- C19, amended: `afterFind` invokes the hook of the wrapped value at most
once and the hook of each element index at most once (the places of the calls
of its log are pairwise different), whatever the hooks do to the collection
and however far the loop has run; so the log has at most `N + 1` calls, `N`
being the largest length `rv.Len()` has returned during the call. When no hook
changes the length of the collection, the call ends within `seqLen m + 1`
turns of the loop and `N` is the length `seqLen m` of the collection at the
call. Each of the nine dispatchers of a single value makes at most one
call. -/
theorem bounded_invocation_count_live (P : LiveProgram) (Q : Program) (m : Model)
    (c : Connection) (w : World) :
    (∀ k d, (k, d) ∈ singleDispatchers → (d Q m c (State.init w)).2.calls.length ≤ 1) ∧
    (∀ eager fuel,
      ((afterFindLive P m c eager fuel w).2.calls.map fun x => x.site).Nodup ∧
      (afterFindLive P m c eager fuel w).2.calls.length ≤
        (afterFindLive P m c eager fuel w).2.maxLen + 1) ∧
    (KeepsLength P → ∀ eager fuel, seqLen m < fuel →
      (afterFindLive P m c eager fuel w).1 ≠ none ∧
      (afterFindLive P m c eager fuel w).2.maxLen ≤ seqLen m ∧
      (afterFindLive P m c eager fuel w).2.calls.length ≤ seqLen m + 1) := by
  refine ⟨(afterFind_call_count Q m c w).1,
    fun eager fuel => afterFindLive_count P m c eager fuel w, ?_⟩
  intro hK eager fuel hf
  obtain ⟨h1, h2⟩ := afterFindLive_returns P m c eager fuel w hK hf
  have h3 := (afterFindLive_count P m c eager fuel w).2
  exact ⟨h1, h2, by omega⟩

/-- The bound at work on a program whose hooks leave the collection alone: five
demo users in a slice behind a pointer, the one at index 2 failing; six turns
are enough, and the three calls are within the bound of six. -/
theorem afterFindLive_five_users :
    seqLen ⟨some (.ptr (.slice none tUser) (.slice none tUser fiveUsers))⟩ = 5 ∧
    (afterFindLive (liftProgram demo)
      ⟨some (.ptr (.slice none tUser) (.slice none tUser fiveUsers))⟩ conn0 false 6 0).1 =
      some (.returned (some 102)) ∧
    (afterFindLive (liftProgram demo)
      ⟨some (.ptr (.slice none tUser) (.slice none tUser fiveUsers))⟩ conn0 false 6 0
      ).2.calls.length = 3 :=
  ⟨rfl, rfl, rfl⟩

end Pop
